import Mathlib

/-!
Verification of the skip-list engine in `src/include/internal/sl_impl.hpp`.

The embedding models the pointer structure explicitly: a heap is a list of
optional nodes, the index into the list playing the role of the node's
address; a freed node is `none`.  The two sentinels live at fixed addresses
`headId = 0` and `tailId = 1`, as created by the `sl_impl` constructor.
Stored values are integers; the sentinels carry the extended values
`-∞` / `+∞`, modelling `std::numeric_limits<T>::min()/max()`.  The
randomized leveling (`rand()`) is modelled by passing the stream of
`rand()` results to `random_level` explicitly, and by passing the drawn
node level to `insert`.
-/

namespace SkipListModel

/-- Extended value domain: stored values are `fin v`; the head sentinel
holds `minf` (numeric minimum, conceptually `-∞`) and the tail sentinel
holds `pinf` (numeric maximum, conceptually `+∞`). -/
inductive EV : Type
  | minf : EV
  | fin : Int → EV
  | pinf : EV
deriving DecidableEq, Repr

/-- The comparator `m_less` (`std::less`) on the extended value domain. -/
def evLess : EV → EV → Bool
  | .minf, .minf => false
  | .minf, _ => true
  | .fin _, .minf => false
  | .fin a, .fin b => decide (a < b)
  | .fin _, .pinf => true
  | .pinf, _ => false

/-- `sl_impl::is_less`. -/
def is_less (lhs rhs : EV) : Bool := evLess lhs rhs

/-- `sl_impl::is_less_or_equal`: `!m_less(rhs, lhs)`. -/
def is_less_or_equal (lhs rhs : EV) : Bool := !evLess rhs lhs

/-- `sl_impl::is_equal`: `!(m_less(lhs, rhs) || m_less(rhs, lhs))`. -/
def is_equal (lhs rhs : EV) : Bool := !(evLess lhs rhs || evLess rhs lhs)

/-- `sl_node<T>`: one stored value, the node's level, the backward link
`m_prev`, and the forward-link array `m_next` of length `m_level + 1`.
A `none` entry is a null pointer. -/
structure Node : Type where
  value : EV
  level : Nat
  prev : Option Nat
  next : List (Option Nat)
deriving DecidableEq, Repr

/-- The node store: index = address, `none` = freed (or never allocated). -/
abbrev Heap := List (Option Node)

/-- Address of the head sentinel `m_head`. -/
def headId : Nat := 0

/-- Address of the tail sentinel `m_tail`. -/
def tailId : Nat := 1

/-- `max_levels` (= 5 in the source). -/
def maxLevels : Nat := 5

/-- Heap lookup (dereference). -/
def hget : Heap → Nat → Option Node
  | [], _ => none
  | x :: _, 0 => x
  | _ :: t, i + 1 => hget t i

/-- Heap update at an existing address (no-op out of range). -/
def hset : Heap → Nat → Option Node → Heap
  | [], _, _ => []
  | _ :: t, 0, v => v :: t
  | x :: t, i + 1, v => x :: hset t i v

/-- Is the address a live (allocated, unfreed) node. -/
def liveD (h : Heap) (i : Nat) : Bool := (hget h i).isSome

/-- The node's `m_value` (defaulting on a dead address, never consulted there). -/
def valD (h : Heap) (i : Nat) : EV :=
  match hget h i with
  | some n => n.value
  | none => .pinf

/-- The node's `m_level`. -/
def levelOf (h : Heap) (i : Nat) : Nat :=
  match hget h i with
  | some n => n.level
  | none => 0

/-- The node's `m_prev`. -/
def prevOf (h : Heap) (i : Nat) : Option Nat :=
  match hget h i with
  | some n => n.prev
  | none => none

/-- Length of the node's `m_next` array. -/
def nextLen (h : Heap) (i : Nat) : Nat :=
  match hget h i with
  | some n => n.next.length
  | none => 0

/-- The node's `m_next[L]` (null / dead address / out of range ↦ `none`). -/
def nxt (h : Heap) (i L : Nat) : Option Nat :=
  match hget h i with
  | some n => n.next.getD L none
  | none => none

/-- Write the node's `m_next[L]`. -/
def hsetNext (h : Heap) (i L : Nat) (t : Option Nat) : Heap :=
  match hget h i with
  | some n => hset h i (some { n with next := n.next.set L t })
  | none => h

/-- Write the node's `m_prev`. -/
def hsetPrev (h : Heap) (i : Nat) (t : Option Nat) : Heap :=
  match hget h i with
  | some n => hset h i (some { n with prev := t })
  | none => h

/-- `sl_node(value, level)`: fresh node, all forward links null. -/
def mkNode (value : EV) (level : Nat) : Node :=
  { value := value, level := level, prev := none,
    next := List.replicate (level + 1) none }

/-- The engine state: the node store plus `m_size`.  (`m_levels` is the
constant `maxLevels`; the sentinels sit at the fixed addresses 0 and 1.) -/
structure SL : Type where
  heap : Heap
  size : Nat
deriving DecidableEq, Repr

/-- The freshly constructed engine: head and tail sentinels spanning all
levels, `head.next[L] = tail` and `tail.next[L] = null` for every `L`,
`tail.prev = head`, size 0. -/
def init : SL :=
  { heap :=
      [some { value := .minf, level := maxLevels, prev := none,
              next := List.replicate (maxLevels + 1) (some tailId) },
       some { value := .pinf, level := maxLevels, prev := some headId,
              next := List.replicate (maxLevels + 1) none }],
    size := 0 }

/-! ## The operations of `sl_impl` -/

/-- The inner `while` loop of `sl_impl::find` at one level: advance while
the next node is not the tail, the current value does not already equal
the target, and the next value is `≤` the target.  (The loop in the source
is bounded by the structure; the model carries explicit fuel, always
instantiated large enough.) -/
def findScan (h : Heap) (target : EV) (L : Nat) : Nat → Nat → Nat
  | 0, curr => curr
  | fuel + 1, curr =>
    match nxt h curr L with
    | none => curr
    | some nx =>
      if nx != tailId && !is_equal (valD h curr) target
          && is_less_or_equal (valD h nx) target
      then findScan h target L fuel nx
      else curr

/-- The level descent of `sl_impl::find`: run the scan at levels
`L, L-1, …, 0`. -/
def findLevels (h : Heap) (target : EV) : Nat → Nat → Nat
  | 0, curr => findScan h target 0 h.length curr
  | L + 1, curr => findLevels h target L (findScan h target (L + 1) h.length curr)

/-- `sl_impl::find`: scan from the head, top level down to level 0. -/
def find (s : SL) (target : EV) : Nat :=
  findLevels s.heap target maxLevels headId

/-- `sl_impl::find_first`: `find`, then one bottom-level step when the
found node's value is not equal to the target. -/
def find_first (s : SL) (target : EV) : Nat :=
  let node := find s target
  if !is_equal (valD s.heap node) target then (nxt s.heap node 0).getD node
  else node

/-- `sl_impl::toss_a_coin`: `rand() % 2 == 0`, the `rand()` result being
supplied. -/
def toss_a_coin (r : Int) : Bool := r % 2 == 0

/-- One run of the `while` loop of `sl_impl::random_level`, consuming the
stream of `rand()` results; the loop body runs at most `maxLevels - 1`
times, so fuel `maxLevels` is exact. -/
def randomLevelGo (coins : Nat → Int) : Nat → Nat → Nat → Nat
  | _, level, 0 => level
  | i, level, fuel + 1 =>
    if level < maxLevels && toss_a_coin (coins i)
    then randomLevelGo coins (i + 1) (level + 1) fuel
    else level

/-- `sl_impl::random_level`: start at 1, increment while the coin says to
continue and `maxLevels` is not yet reached. -/
def random_level (coins : Nat → Int) : Nat := randomLevelGo coins 0 1 maxLevels

/-- The inner `while` loop shared by `sl_impl::insert` and
`sl_impl::remove` at one level: advance while the next node is not the
tail and its value is strictly less than `value`. -/
def scanLess (h : Heap) (value : EV) (L : Nat) : Nat → Nat → Nat
  | 0, curr => curr
  | fuel + 1, curr =>
    match nxt h curr L with
    | none => curr
    | some nx =>
      if nx != tailId && evLess (valD h nx) value
      then scanLess h value L fuel nx
      else curr

/-- The level-`L` splice of `sl_impl::insert`:
`new_node->m_next[level] = curr->m_next[level]; curr->m_next[level] = new_node`. -/
def spliceAt (h : Heap) (nid L curr : Nat) : Heap :=
  hsetNext (hsetNext h nid L (nxt h curr L)) curr L (some nid)

/-- The `do … while (level != 0)` descent of `sl_impl::insert`, from level
`L` down to 0; returns the heap and the final `curr` (the bottom-level
predecessor of the new node). -/
def insertLoop (value : EV) (nid nodeLevel : Nat) : Nat → Heap → Nat → Heap × Nat
  | L, h, curr =>
    let curr1 := scanLess h value L h.length curr
    let h1 := if L ≤ nodeLevel then spliceAt h nid L curr1 else h
    match L with
    | 0 => (h1, curr1)
    | M + 1 => insertLoop value nid nodeLevel M h1 curr1

/-- `sl_impl::insert value (hint)`: allocate a node of the drawn level,
descend from the hint (else the head) starting at that node's own level,
splicing at every level `≤ nodeLevel`; then fix the two bottom-level
backward references and bump the size.  Returns the new state and the
returned node handle. -/
def insert (s : SL) (value : Int) (nodeLevel : Nat) (hint : Option Nat) : SL × Nat :=
  let nid := s.heap.length
  let h0 := s.heap ++ [some (mkNode (.fin value) nodeLevel)]
  let start := match hint with
    | some p => p
    | none => headId
  let startLevel := levelOf h0 start
  let r := insertLoop (.fin value) nid nodeLevel startLevel h0 start
  let h2 := hsetPrev r.1 nid (some r.2)
  let h3 := match nxt r.1 nid 0 with
    | some m => hsetPrev h2 m (some nid)
    | none => h2
  ({ heap := h3, size := s.size + 1 }, nid)

/-- The per-level body of `sl_impl::remove`'s descent: scan by value
(strict less), then, when the forward pointer at this level is exactly the
node being removed (identity comparison), retarget it past the node. -/
def removeLoop (value : EV) (nid : Nat) : Nat → Heap → Nat → Heap
  | L, h, curr =>
    let curr1 := scanLess h value L h.length curr
    let h1 := if nxt h curr1 L == some nid then hsetNext h curr1 L (nxt h nid L) else h
    match L with
    | 0 => h1
    | M + 1 => removeLoop value nid M h1 curr1

/-- `sl_impl::remove node`: fix the bottom-level backward reference of the
node's successor, re-descend from the head unlinking the node wherever its
identity is found, free it, decrement the size. -/
def remove (s : SL) (nid : Nat) : SL :=
  let value := valD s.heap nid
  let h0 := match nxt s.heap nid 0 with
    | some m => hsetPrev s.heap m (prevOf s.heap nid)
    | none => s.heap
  let h1 := removeLoop value nid maxLevels h0 headId
  { heap := hset h1 nid none, size := s.size - 1 }

/-- The freeing walk of `sl_impl::remove_all`: from the head's bottom-level
successor to the tail, saving each node's successor before freeing it. -/
def removeAllFree : Heap → Nat → Nat → Heap
  | h, 0, _ => h
  | h, fuel + 1, node =>
    if node = tailId then h
    else
      match nxt h node 0 with
      | none => h
      | some nx => removeAllFree (hset h node none) fuel nx

/-- `sl_impl::remove_all`: free every bottom-level node, point every level
of the head directly at the tail, point the tail's backward reference at
the head, reset the size. -/
def remove_all (s : SL) : SL :=
  let h1 := removeAllFree s.heap s.heap.length ((nxt s.heap headId 0).getD tailId)
  let h2 := (List.range (maxLevels + 1)).foldl (fun h L => hsetNext h headId L (some tailId)) h1
  { heap := hsetPrev h2 tailId (some headId), size := 0 }

/-- `sl_impl::front`: `m_head->m_next[0]`. -/
def front (s : SL) : Nat := (nxt s.heap headId 0).getD tailId

/-- `sl_impl::back`: `m_tail->m_prev`. -/
def back (s : SL) : Nat := (prevOf s.heap tailId).getD headId

/-! ## Traversal chains

`chainAt h L` is the sequence of node addresses on the level-`L` forward
chain strictly between the sentinels, obtained by following `m_next[L]`
links from the head; it is `none` when that walk does not reach the tail
through live nodes (a corrupted chain). -/

/-- Follow `m_next[L]` links from `i` until the tail, collecting the
visited addresses; `none` on a null link, a dead node, or fuel exhaustion. -/
def chainFrom (h : Heap) (L : Nat) : Nat → Nat → Option (List Nat)
  | 0, _ => none
  | fuel + 1, i =>
    if i = tailId then some []
    else
      match hget h i with
      | none => none
      | some n =>
        match n.next.getD L none with
        | none => none
        | some nx => (chainFrom h L fuel nx).map (i :: ·)

/-- The level-`L` chain between the sentinels. -/
def chainAt (h : Heap) (L : Nat) : Option (List Nat) :=
  match nxt h headId L with
  | none => none
  | some i => chainFrom h L (h.length + 1) i

/-- The bottom-level chain, defaulting to `[]` (only read under the
invariant, where it is total). -/
def chain0 (h : Heap) : List Nat := (chainAt h 0).getD []

/-- Follow `m_prev` links from `i` back to the head, collecting the
visited addresses (the backward traversal of the iterator `operator--`). -/
def backFrom (h : Heap) : Nat → Nat → Option (List Nat)
  | 0, _ => none
  | fuel + 1, i =>
    if i = headId then some []
    else
      match hget h i with
      | none => none
      | some n =>
        match n.prev with
        | none => none
        | some p => (backFrom h fuel p).map (i :: ·)

/-- The backward chain from the tail's predecessor to the head. -/
def backChain (h : Heap) : Option (List Nat) :=
  match prevOf h tailId with
  | none => none
  | some i => backFrom h (h.length + 1) i

/-- Is the value a finite (stored, non-sentinel) value. -/
def isFin : EV → Bool
  | .fin _ => true
  | _ => false

/-! ## Pointer paths

`Seg h L i l j` states that starting at address `i` and repeatedly
following `m_next[L]`, the walk visits exactly the (live, non-tail)
addresses in `l` and then arrives at `j`. -/

inductive Seg (h : Heap) (L : Nat) : Nat → List Nat → Nat → Prop
  | nil (i : Nat) : Seg h L i [] i
  | cons {i nx j : Nat} {l : List Nat} :
      i ≠ tailId → liveD h i = true → nxt h i L = some nx →
      Seg h L nx l j → Seg h L i (i :: l) j

/-! ## The structural invariant

`Inv s` packages the well-formedness the engine maintains: well-formed
sentinels, every level chain a total head-to-tail walk, each level-`L`
chain consisting exactly of the bottom-level nodes of level `≥ L`, the
bottom chain sorted (non-decreasing under the comparator) and duplicate
free, live non-sentinel nodes exactly the bottom-chain members, and the
size counter equal to the number of stored nodes. -/

@[mk_iff]
structure Inv (s : SL) : Prop where
  headLive : liveD s.heap headId = true
  headVal : valD s.heap headId = EV.minf
  headLevel : levelOf s.heap headId = maxLevels
  headLen : nextLen s.heap headId = maxLevels + 1
  tailLive : liveD s.heap tailId = true
  tailVal : valD s.heap tailId = EV.pinf
  tailLevel : levelOf s.heap tailId = maxLevels
  tailLen : nextLen s.heap tailId = maxLevels + 1
  tailNext : ∀ L < maxLevels + 1, nxt s.heap tailId L = none
  chains : ∀ L < maxLevels + 1, (chainAt s.heap L).isSome = true
  filterChar : ∀ L < maxLevels + 1,
    (chainAt s.heap L).getD [] = (chain0 s.heap).filter (fun i => decide (L ≤ levelOf s.heap i))
  sorted : List.Pairwise
    (fun a b => is_less_or_equal (valD s.heap a) (valD s.heap b) = true) (chain0 s.heap)
  nodup : (chain0 s.heap).Nodup
  mem_ok : ∀ i ∈ chain0 s.heap, i ≠ headId ∧ i ≠ tailId ∧ isFin (valD s.heap i) = true ∧
    levelOf s.heap i ≤ maxLevels ∧ nextLen s.heap i = levelOf s.heap i + 1
  live_char : ∀ i < s.heap.length,
    liveD s.heap i = true → i = headId ∨ i = tailId ∨ i ∈ chain0 s.heap
  len_bound : (chain0 s.heap).length + 2 ≤ s.heap.length
  size_eq : s.size = (chain0 s.heap).length

instance (s : SL) : Decidable (Inv s) :=
  decidable_of_iff _ (inv_iff s).symm

/-! ## Scans as list walks

When the scan's start sits on a pointer path to the tail, the fueled
pointer scans compute a pure walk over the path's list, which the
`…Dest` functions describe.  All subsequent reasoning is on these list
walks. -/

/-- List-side mirror of `scanLess`. -/
def scanLessDest (h : Heap) (value : EV) : Nat → List Nat → Nat
  | i, [] => i
  | i, nx :: rest => if evLess (valD h nx) value then scanLessDest h value nx rest else i

/-- List-side mirror of `findScan`. -/
def findScanDest (h : Heap) (target : EV) : Nat → List Nat → Nat
  | i, [] => i
  | i, nx :: rest =>
    if !is_equal (valD h i) target && is_less_or_equal (valD h nx) target
    then findScanDest h target nx rest
    else i

/-- The floor property of `find` at a stored-value target: the result is a
live non-tail node; when some stored value is `≤` the target it is a
stored node holding the greatest such value; when the target is less than
every stored value it is the head sentinel. -/
def findFloorOK (s : SL) (t : Int) : Prop :=
  liveD s.heap (find s (.fin t)) = true ∧
  find s (.fin t) ≠ tailId ∧
  ((∃ i ∈ chain0 s.heap, is_less_or_equal (valD s.heap i) (.fin t) = true) →
    find s (.fin t) ∈ chain0 s.heap ∧
    is_less_or_equal (valD s.heap (find s (.fin t))) (.fin t) = true ∧
    ∀ i ∈ chain0 s.heap, is_less_or_equal (valD s.heap i) (.fin t) = true →
      is_less_or_equal (valD s.heap i) (valD s.heap (find s (.fin t))) = true) ∧
  ((∀ i ∈ chain0 s.heap, is_less (.fin t) (valD s.heap i) = true) →
    find s (.fin t) = headId)

/-- The lower-bound property of `find_first` at a stored-value target:
the result is a stored node with value equal to the target, or the first
node (in bottom-level order) with value strictly greater than the target,
or the tail sentinel when the target exceeds every stored value. -/
def findFirstOK (s : SL) (t : Int) : Prop :=
  (find_first s (.fin t) ∈ chain0 s.heap ∧ valD s.heap (find_first s (.fin t)) = .fin t) ∨
  ((chain0 s.heap).dropWhile
      (fun i => is_less_or_equal (valD s.heap i) (.fin t))).head?
    = some (find_first s (.fin t)) ∨
  (find_first s (.fin t) = tailId ∧
    ∀ i ∈ chain0 s.heap, evLess (valD s.heap i) (.fin t) = true)

/-! ## Concrete states for witnesses and counterexamples -/

/-- A small state: insert 10 at level 2, then 20 at level 1. -/
def wstateA : SL := (insert (insert init 10 2 none).1 20 1 none).1

/-- Two equal values inserted back to back, both at level 1 (the level
`random_level` draws on a stream of odd `rand()` results).  The first
insert returns the handle 2, the second the handle 3; the bottom-level
chain is `[3, 2]` (reverse insertion order among equals). -/
def dupPre : SL :=
  (insert (insert init 5 (random_level fun _ => 1) none).1
    5 (random_level fun _ => 1) none).1

/-- `remove` on the handle 2 (the first-inserted duplicate, which sits
second on every chain).  The per-level scan of `sl_impl::remove` stops at
the first node with value `≥ 5` — node 3 — whose identity differs from 2,
so node 2 is never unlinked, yet it is freed and the size decremented. -/
def dupPost : SL := remove dupPre 2

/-! ## Effect of `insert` without a hint

The loop invariant `LoopInv` describes the heap after the levels above `L`
have been processed; `LoopOut` describes the heap when the descent has
finished.  `twAt`/`dwAt` split the level-`L` chain of the pre-insert state
at the insertion point; `posAt` is the splice predecessor and `succAt` the
splice successor at each level. -/

/-- The strictly-less prefix of the level-`L` chain (all nodes scanned
past by the insertion descent). -/
def twAt (s : SL) (v : Int) (L : Nat) : List Nat :=
  ((chainAt s.heap L).getD []).takeWhile (fun j => evLess (valD s.heap j) (EV.fin v))

/-- The rest of the level-`L` chain (first node of value `≥ v` onward). -/
def dwAt (s : SL) (v : Int) (L : Nat) : List Nat :=
  ((chainAt s.heap L).getD []).dropWhile (fun j => evLess (valD s.heap j) (EV.fin v))

/-- The splice predecessor at level `L` (the head sentinel when no node is
strictly less). -/
def posAt (s : SL) (v : Int) (L : Nat) : Nat := (twAt s v L).getLastD headId

/-- The splice successor at level `L` (the tail sentinel at chain end). -/
def succAt (s : SL) (v : Int) (L : Nat) : Nat := (dwAt s v L).headD tailId

def LoopInv (s : SL) (v : Int) (k L : Nat) (t : Heap) (curr : Nat) : Prop :=
  t.length = s.heap.length + 1 ∧
  (∀ j, j < s.heap.length → liveD t j = liveD s.heap j ∧ valD t j = valD s.heap j ∧
    levelOf t j = levelOf s.heap j ∧ nextLen t j = nextLen s.heap j) ∧
  (liveD t s.heap.length = true ∧ valD t s.heap.length = EV.fin v ∧
    levelOf t s.heap.length = k ∧ nextLen t s.heap.length = k + 1) ∧
  (∀ j M, j < s.heap.length → M ≤ L → nxt t j M = nxt s.heap j M) ∧
  (∀ M, nxt t s.heap.length M = if L < M ∧ M ≤ k then some (succAt s v M) else none) ∧
  (∀ j M, j < s.heap.length → L < M →
    nxt t j M = if j = posAt s v M ∧ M ≤ k then some s.heap.length else nxt s.heap j M) ∧
  (curr = headId ∨ (curr ∈ chain0 s.heap ∧ L + 1 ≤ levelOf s.heap curr ∧
    evLess (valD s.heap curr) (EV.fin v) = true))

def LoopOut (s : SL) (v : Int) (k : Nat) (t : Heap) (curr : Nat) : Prop :=
  t.length = s.heap.length + 1 ∧
  (∀ j, j < s.heap.length → liveD t j = liveD s.heap j ∧ valD t j = valD s.heap j ∧
    levelOf t j = levelOf s.heap j ∧ nextLen t j = nextLen s.heap j) ∧
  (liveD t s.heap.length = true ∧ valD t s.heap.length = EV.fin v ∧
    levelOf t s.heap.length = k ∧ nextLen t s.heap.length = k + 1) ∧
  (∀ M, nxt t s.heap.length M = if M ≤ k then some (succAt s v M) else none) ∧
  (∀ j M, j < s.heap.length →
    nxt t j M = if j = posAt s v M ∧ M ≤ k then some s.heap.length else nxt s.heap j M) ∧
  curr = posAt s v 0

/-- The placement property of a hint-free insert: the returned handle is a
fresh node, the size grows by one, at every level `L ≤ nodeLevel` the new
node sits exactly between the strictly-less prefix and the rest of the
level chain (levels above `nodeLevel` are untouched), and every node of
equal value sits in the `dwAt` part — after the new node. -/
def insertPlacedOK (s : SL) (v : Int) (k : Nat) : Prop :=
  (insert s v k none).2 ∉ chain0 s.heap ∧
  (insert s v k none).1.size = s.size + 1 ∧
  (∀ L, L < maxLevels + 1 → chainAt (insert s v k none).1.heap L =
    some (if L ≤ k then twAt s v L ++ (insert s v k none).2 :: dwAt s v L
          else (chainAt s.heap L).getD [])) ∧
  (∀ L, L < maxLevels + 1 → ∀ j ∈ (chainAt s.heap L).getD [],
    is_equal (valD s.heap j) (EV.fin v) = true → j ∈ dwAt s v L)

/-! ## C9: `random_level` never returns 0, and insert-only states have
identical level-0 and level-1 chains. -/

/-- States reachable by hint-free inserts whose levels are drawn by
`random_level` (on any streams of `rand()` results). -/
inductive InsertReach : SL → Prop
  | base : InsertReach init
  | step (s : SL) (v : Int) (coins : Nat → Int) : InsertReach s →
      InsertReach (insert s v (random_level coins) none).1

def RemInv (u : SL) (w : Int) (nid L : Nat) (t : Heap) (curr : Nat) : Prop :=
  t.length = u.heap.length ∧
  (∀ j, liveD t j = liveD u.heap j ∧ valD t j = valD u.heap j ∧
    levelOf t j = levelOf u.heap j ∧ nextLen t j = nextLen u.heap j) ∧
  (∀ j M, M ≤ L → nxt t j M = nxt u.heap j M) ∧
  (∀ j M, L < M → nxt t j M =
    if j = posAt u w M ∧ M ≤ levelOf u.heap nid then nxt u.heap nid M else nxt u.heap j M) ∧
  (curr = headId ∨ (curr ∈ chain0 u.heap ∧ L + 1 ≤ levelOf u.heap curr ∧
    evLess (valD u.heap curr) (EV.fin w) = true))

def RemOut (u : SL) (w : Int) (nid : Nat) (t : Heap) : Prop :=
  t.length = u.heap.length ∧
  (∀ j, liveD t j = liveD u.heap j ∧ valD t j = valD u.heap j ∧
    levelOf t j = levelOf u.heap j ∧ nextLen t j = nextLen u.heap j) ∧
  (∀ j M, nxt t j M =
    if j = posAt u w M ∧ M ≤ levelOf u.heap nid then nxt u.heap nid M else nxt u.heap j M)

/-! ## C5: insert followed by remove of the returned handle is the
identity on the size and the bottom-level chain. -/

/-- C5 property: inserting `v` and removing the handle the insert
returned restores the size and the bottom-level chain. -/
def insertRemoveOK (s : SL) (v : Int) (k : Nat) : Prop :=
  (remove (insert s v k none).1 (insert s v k none).2).size = s.size ∧
  chainAt (remove (insert s v k none).1 (insert s v k none).2).heap 0 = chainAt s.heap 0

/-- C7 property: after `remove_all` the engine holds no non-sentinel
nodes, every head forward pointer is the tail, and the tail's backward
reference is the head. -/
def removeAllOK (s : SL) : Prop :=
  (remove_all s).size = 0 ∧
  (∀ L, L < maxLevels + 1 → nxt (remove_all s).heap headId L = some tailId) ∧
  prevOf (remove_all s).heap tailId = some headId ∧
  front (remove_all s) = tailId ∧
  back (remove_all s) = headId ∧
  (∀ i, i < (remove_all s).heap.length →
    liveD (remove_all s).heap i = true → i = headId ∨ i = tailId)

/-- Invariant of the hinted-insert descent (`hl` is the hint's level, the
start level of the descent): levels `≤ L` and levels above `hl` are
untouched on the old nodes, the new node's pointers above `hl` are still
null, and each already-processed level `M` (`L < M ≤ hl`) has an old node
pointing at the new node. -/
def HintInv (s : SL) (hl L : Nat) (t : Heap) : Prop :=
  t.length = s.heap.length + 1 ∧
  (∀ j, j < s.heap.length → liveD t j = liveD s.heap j ∧
    valD t j = valD s.heap j ∧ levelOf t j = levelOf s.heap j ∧
    nextLen t j = nextLen s.heap j) ∧
  (∀ j M, j < s.heap.length → M ≤ L → nxt t j M = nxt s.heap j M) ∧
  (∀ j M, j < s.heap.length → hl < M → nxt t j M = nxt s.heap j M) ∧
  (∀ M, hl < M → nxt t s.heap.length M = none) ∧
  (∀ M, L < M → M ≤ hl → ∃ q, q < s.heap.length ∧ nxt t q M = some s.heap.length)

/-- Output of the hinted-insert descent. -/
def HintOut (s : SL) (hl : Nat) (t : Heap) : Prop :=
  t.length = s.heap.length + 1 ∧
  (∀ j, j < s.heap.length → liveD t j = liveD s.heap j ∧
    valD t j = valD s.heap j ∧ levelOf t j = levelOf s.heap j ∧
    nextLen t j = nextLen s.heap j) ∧
  (∀ j M, j < s.heap.length → hl < M → nxt t j M = nxt s.heap j M) ∧
  (∀ M, hl < M → nxt t s.heap.length M = none) ∧
  (∀ M, M ≤ hl → ∃ q, q < s.heap.length ∧ nxt t q M = some s.heap.length)

/-- C10 property: a hinted insert whose drawn level exceeds the hint's
level returns a fresh handle, bumps the size, leaves the new node's
forward pointers above the hint's level null, leaves every chain above the
hint's level unchanged (the new node is absent from them), and links the
new node into every level up to the hint's level. -/
def hintInsertOK (s : SL) (v : Int) (k : Nat) (hintN : Nat) : Prop :=
  (insert s v k (some hintN)).2 = s.heap.length ∧
  (insert s v k (some hintN)).1.size = s.size + 1 ∧
  (∀ M, levelOf s.heap hintN < M →
    nxt (insert s v k (some hintN)).1.heap s.heap.length M = none) ∧
  (∀ L, L < maxLevels + 1 → levelOf s.heap hintN < L →
    chainAt (insert s v k (some hintN)).1.heap L = chainAt s.heap L ∧
    s.heap.length ∉ (chainAt s.heap L).getD []) ∧
  (∀ M, M ≤ levelOf s.heap hintN → ∃ p, p < s.heap.length ∧
    nxt (insert s v k (some hintN)).1.heap p M = some s.heap.length)

/-! ## Order lemmas for the extended value domain -/

theorem evLess_irrefl (a : EV) : evLess a a = false := by
  cases a <;> simp [evLess]

theorem evLess_trans {a b c : EV} (h1 : evLess a b = true) (h2 : evLess b c = true) :
    evLess a c = true := by
  cases a <;> cases b <;> cases c <;> simp_all [evLess] <;> omega

theorem isLE_of_not_less {a b : EV} (h : evLess b a = false) :
    is_less_or_equal a b = true := by
  simp [is_less_or_equal, h]

theorem not_less_of_isLE {a b : EV} (h : is_less_or_equal a b = true) :
    evLess b a = false := by
  simpa [is_less_or_equal] using h

theorem isLE_trans {a b c : EV} (h1 : is_less_or_equal a b = true)
    (h2 : is_less_or_equal b c = true) : is_less_or_equal a c = true := by
  have h1' := not_less_of_isLE h1
  have h2' := not_less_of_isLE h2
  apply isLE_of_not_less
  cases a <;> cases b <;> cases c <;> simp_all [evLess] <;> omega

theorem isLE_refl (a : EV) : is_less_or_equal a a = true := by
  simp [is_less_or_equal, evLess_irrefl]

theorem isLE_of_less {a b : EV} (h : evLess a b = true) :
    is_less_or_equal a b = true := by
  apply isLE_of_not_less
  cases a <;> cases b <;> simp_all [evLess] <;> omega

theorem less_of_isLE_of_less {a b c : EV} (h1 : is_less_or_equal a b = true)
    (h2 : evLess b c = true) : evLess a c = true := by
  have h1' := not_less_of_isLE h1
  cases a <;> cases b <;> cases c <;> simp_all [evLess] <;> omega

theorem less_of_less_of_isLE {a b c : EV} (h1 : evLess a b = true)
    (h2 : is_less_or_equal b c = true) : evLess a c = true := by
  have h2' := not_less_of_isLE h2
  cases a <;> cases b <;> cases c <;> simp_all [evLess] <;> omega

theorem is_equal_fin {a b : Int} : is_equal (.fin a) (.fin b) = true ↔ a = b := by
  simp [is_equal, evLess]
  omega

theorem is_equal_minf_fin (t : Int) : is_equal .minf (.fin t) = false := by
  simp [is_equal, evLess]

theorem evLess_fin {a b : Int} : evLess (.fin a) (.fin b) = true ↔ a < b := by
  simp [evLess]

theorem isLE_fin {a b : Int} : is_less_or_equal (.fin a) (.fin b) = true ↔ a ≤ b := by
  simp [is_less_or_equal, evLess]

theorem isLE_minf (a : EV) : is_less_or_equal .minf a = true := by
  cases a <;> simp [is_less_or_equal, evLess]

theorem isLE_antisymm {a b : Int} (h1 : is_less_or_equal (.fin a) (.fin b) = true)
    (h2 : is_less_or_equal (.fin b) (.fin a) = true) : a = b := by
  rw [isLE_fin] at h1 h2; omega

theorem isFin_iff {a : EV} : isFin a = true ↔ ∃ x, a = EV.fin x := by
  cases a <;> simp [isFin]

/-! ## Heap primitive lemmas -/

theorem hget_ge_length {h : Heap} {i : Nat} (hi : h.length ≤ i) : hget h i = none := by
  induction h generalizing i with
  | nil => cases i <;> rfl
  | cons x t ih =>
    cases i with
    | zero => simp at hi
    | succ j => exact ih (by simpa using hi)

theorem lt_length_of_hget {h : Heap} {i : Nat} {n : Node} (hg : hget h i = some n) :
    i < h.length := by
  by_contra hc
  rw [hget_ge_length (by omega)] at hg
  exact Option.noConfusion hg

theorem lt_length_of_liveD {h : Heap} {i : Nat} (hl : liveD h i = true) :
    i < h.length := by
  unfold liveD at hl
  cases hg : hget h i with
  | none => rw [hg] at hl; simp at hl
  | some n => exact lt_length_of_hget hg

theorem length_hset (h : Heap) (i : Nat) (v : Option Node) :
    (hset h i v).length = h.length := by
  induction h generalizing i with
  | nil => rfl
  | cons x t ih => cases i <;> simp [hset, ih]

theorem hget_hset_self {h : Heap} {i : Nat} (hi : i < h.length) (v : Option Node) :
    hget (hset h i v) i = v := by
  induction h generalizing i with
  | nil => simp at hi
  | cons x t ih =>
    cases i with
    | zero => rfl
    | succ j => exact ih (by simpa using hi)

theorem hget_hset_ne : ∀ (h : Heap) (i j : Nat), j ≠ i → ∀ v : Option Node,
    hget (hset h i v) j = hget h j
  | [], _, _, _, _ => rfl
  | _ :: _, 0, 0, hij, _ => absurd rfl hij
  | _ :: _, 0, _ + 1, _, _ => rfl
  | _ :: _, _ + 1, 0, _, _ => rfl
  | _ :: t, m + 1, k + 1, hij, v => hget_hset_ne t m k (by omega) v

theorem hget_append_lt {h : Heap} {l : Heap} {i : Nat} (hi : i < h.length) :
    hget (h ++ l) i = hget h i := by
  induction h generalizing i with
  | nil => simp at hi
  | cons x t ih =>
    cases i with
    | zero => rfl
    | succ j => exact ih (by simpa using hi)

theorem hget_append_self (h : Heap) (x : Option Node) :
    hget (h ++ [x]) h.length = x := by
  induction h with
  | nil => rfl
  | cons y t ih => simpa using ih

/-! ## Frame lemmas for the heap writers -/

theorem length_hsetNext (h : Heap) (i L : Nat) (t : Option Nat) :
    (hsetNext h i L t).length = h.length := by
  unfold hsetNext
  cases hget h i <;> simp [length_hset]

theorem length_hsetPrev (h : Heap) (i : Nat) (t : Option Nat) :
    (hsetPrev h i t).length = h.length := by
  unfold hsetPrev
  cases hget h i <;> simp [length_hset]

theorem hget_hsetNext_ne {h : Heap} {i j : Nat} (hij : j ≠ i) (L : Nat) (t : Option Nat) :
    hget (hsetNext h i L t) j = hget h j := by
  unfold hsetNext
  cases hget h i with
  | none => rfl
  | some n => exact hget_hset_ne h i j hij _

theorem hget_hsetPrev_ne {h : Heap} {i j : Nat} (hij : j ≠ i) (t : Option Nat) :
    hget (hsetPrev h i t) j = hget h j := by
  unfold hsetPrev
  cases hget h i with
  | none => rfl
  | some n => exact hget_hset_ne h i j hij _

theorem hget_hsetNext_self {h : Heap} {i : Nat} {n : Node} (hg : hget h i = some n)
    (L : Nat) (t : Option Nat) :
    hget (hsetNext h i L t) i = some { n with next := n.next.set L t } := by
  unfold hsetNext
  rw [hg]
  exact hget_hset_self (lt_length_of_hget hg) _

theorem hget_hsetPrev_self {h : Heap} {i : Nat} {n : Node} (hg : hget h i = some n)
    (t : Option Nat) :
    hget (hsetPrev h i t) i = some { n with prev := t } := by
  unfold hsetPrev
  rw [hg]
  exact hget_hset_self (lt_length_of_hget hg) _

theorem liveD_hsetNext (h : Heap) (i L : Nat) (t : Option Nat) (j : Nat) :
    liveD (hsetNext h i L t) j = liveD h j := by
  by_cases hij : j = i
  · subst hij
    unfold liveD
    cases hg : hget h j with
    | none => simp [hsetNext, hg]
    | some n => rw [hget_hsetNext_self hg]; simp [hg]
  · unfold liveD; rw [hget_hsetNext_ne hij]

theorem liveD_hsetPrev (h : Heap) (i : Nat) (t : Option Nat) (j : Nat) :
    liveD (hsetPrev h i t) j = liveD h j := by
  by_cases hij : j = i
  · subst hij
    unfold liveD
    cases hg : hget h j with
    | none => simp [hsetPrev, hg]
    | some n => rw [hget_hsetPrev_self hg]; simp [hg]
  · unfold liveD; rw [hget_hsetPrev_ne hij]

theorem valD_hsetNext (h : Heap) (i L : Nat) (t : Option Nat) (j : Nat) :
    valD (hsetNext h i L t) j = valD h j := by
  by_cases hij : j = i
  · subst hij
    unfold valD
    cases hg : hget h j with
    | none => simp [hsetNext, hg]
    | some n => simp [hget_hsetNext_self hg, hg]
  · unfold valD; rw [hget_hsetNext_ne hij]

theorem valD_hsetPrev (h : Heap) (i : Nat) (t : Option Nat) (j : Nat) :
    valD (hsetPrev h i t) j = valD h j := by
  by_cases hij : j = i
  · subst hij
    unfold valD
    cases hg : hget h j with
    | none => simp [hsetPrev, hg]
    | some n => simp [hget_hsetPrev_self hg, hg]
  · unfold valD; rw [hget_hsetPrev_ne hij]

theorem levelOf_hsetNext (h : Heap) (i L : Nat) (t : Option Nat) (j : Nat) :
    levelOf (hsetNext h i L t) j = levelOf h j := by
  by_cases hij : j = i
  · subst hij
    unfold levelOf
    cases hg : hget h j with
    | none => simp [hsetNext, hg]
    | some n => simp [hget_hsetNext_self hg, hg]
  · unfold levelOf; rw [hget_hsetNext_ne hij]

theorem levelOf_hsetPrev (h : Heap) (i : Nat) (t : Option Nat) (j : Nat) :
    levelOf (hsetPrev h i t) j = levelOf h j := by
  by_cases hij : j = i
  · subst hij
    unfold levelOf
    cases hg : hget h j with
    | none => simp [hsetPrev, hg]
    | some n => simp [hget_hsetPrev_self hg, hg]
  · unfold levelOf; rw [hget_hsetPrev_ne hij]

theorem nextLen_hsetNext (h : Heap) (i L : Nat) (t : Option Nat) (j : Nat) :
    nextLen (hsetNext h i L t) j = nextLen h j := by
  by_cases hij : j = i
  · subst hij
    unfold nextLen
    cases hg : hget h j with
    | none => simp [hsetNext, hg]
    | some n => simp [hget_hsetNext_self hg, hg]
  · unfold nextLen; rw [hget_hsetNext_ne hij]

theorem nextLen_hsetPrev (h : Heap) (i : Nat) (t : Option Nat) (j : Nat) :
    nextLen (hsetPrev h i t) j = nextLen h j := by
  by_cases hij : j = i
  · subst hij
    unfold nextLen
    cases hg : hget h j with
    | none => simp [hsetPrev, hg]
    | some n => simp [hget_hsetPrev_self hg, hg]
  · unfold nextLen; rw [hget_hsetPrev_ne hij]

theorem nxt_hsetNext_ne {h : Heap} {i j : Nat} (hij : j ≠ i) (L M : Nat) (t : Option Nat) :
    nxt (hsetNext h i L t) j M = nxt h j M := by
  unfold nxt; rw [hget_hsetNext_ne hij]

theorem nxt_hsetNext_neL {h : Heap} {i L M : Nat} (hLM : M ≠ L) (t : Option Nat) (j : Nat) :
    nxt (hsetNext h i L t) j M = nxt h j M := by
  by_cases hij : j = i
  · subst hij
    unfold nxt
    cases hg : hget h j with
    | none => simp [hsetNext, hg]
    | some n =>
      simp only [hget_hsetNext_self hg, hg]
      simp only [List.getD_eq_getElem?_getD]
      rw [List.getElem?_set_ne (by omega)]
  · unfold nxt; rw [hget_hsetNext_ne hij]

theorem nxt_hsetNext_self {h : Heap} {i L : Nat} (hL : L < nextLen h i) (t : Option Nat) :
    nxt (hsetNext h i L t) i L = t := by
  unfold nextLen at hL
  cases hg : hget h i with
  | none => rw [hg] at hL; simp at hL
  | some n =>
    rw [hg] at hL
    unfold nxt
    rw [hget_hsetNext_self hg]
    simp only [List.getD_eq_getElem?_getD]
    rw [List.getElem?_set_self (by simpa using hL)]
    rfl

theorem nxt_hsetPrev (h : Heap) (i : Nat) (t : Option Nat) (j M : Nat) :
    nxt (hsetPrev h i t) j M = nxt h j M := by
  by_cases hij : j = i
  · subst hij
    unfold nxt
    cases hg : hget h j with
    | none => simp [hsetPrev, hg]
    | some n => simp [hget_hsetPrev_self hg, hg]
  · unfold nxt; rw [hget_hsetPrev_ne hij]

theorem prevOf_hsetNext (h : Heap) (i L : Nat) (t : Option Nat) (j : Nat) :
    prevOf (hsetNext h i L t) j = prevOf h j := by
  by_cases hij : j = i
  · subst hij
    unfold prevOf
    cases hg : hget h j with
    | none => simp [hsetNext, hg]
    | some n => simp [hget_hsetNext_self hg, hg]
  · unfold prevOf; rw [hget_hsetNext_ne hij]

theorem prevOf_hsetPrev_self {h : Heap} {i : Nat} (hl : liveD h i = true) (t : Option Nat) :
    prevOf (hsetPrev h i t) i = t := by
  unfold liveD at hl
  cases hg : hget h i with
  | none => rw [hg] at hl; simp at hl
  | some n => unfold prevOf; rw [hget_hsetPrev_self hg]

theorem prevOf_hsetPrev_ne {h : Heap} {i j : Nat} (hij : j ≠ i) (t : Option Nat) :
    prevOf (hsetPrev h i t) j = prevOf h j := by
  unfold prevOf; rw [hget_hsetPrev_ne hij]

/-- Frame lemmas for freeing a node (`hset h i none`). -/
theorem liveD_free_self (h : Heap) (i : Nat) : liveD (hset h i none) i = false := by
  unfold liveD
  by_cases hi : i < h.length
  · rw [hget_hset_self hi]; rfl
  · rw [hget_ge_length (by rw [length_hset]; omega)]; rfl

theorem hget_free_ne {h : Heap} {i j : Nat} (hij : j ≠ i) :
    hget (hset h i none) j = hget h j := hget_hset_ne h i j hij none

theorem liveD_free_ne {h : Heap} {i j : Nat} (hij : j ≠ i) :
    liveD (hset h i none) j = liveD h j := by
  unfold liveD; rw [hget_free_ne hij]

theorem nxt_free_ne {h : Heap} {i j : Nat} (hij : j ≠ i) (M : Nat) :
    nxt (hset h i none) j M = nxt h j M := by
  unfold nxt; rw [hget_free_ne hij]

theorem valD_free_ne {h : Heap} {i j : Nat} (hij : j ≠ i) :
    valD (hset h i none) j = valD h j := by
  unfold valD; rw [hget_free_ne hij]

/-- Frame lemmas for allocation (`h ++ [some n]`). -/
theorem hget_alloc_old {h : Heap} {i : Nat} (hi : i < h.length) (x : Option Node) :
    hget (h ++ [x]) i = hget h i := hget_append_lt hi

theorem liveD_alloc_old {h : Heap} {i : Nat} (hi : i < h.length) (x : Option Node) :
    liveD (h ++ [x]) i = liveD h i := by
  unfold liveD; rw [hget_alloc_old hi]

theorem nxt_alloc_old {h : Heap} {i : Nat} (hi : i < h.length) (x : Option Node) (M : Nat) :
    nxt (h ++ [x]) i M = nxt h i M := by
  unfold nxt; rw [hget_alloc_old hi]

theorem valD_alloc_old {h : Heap} {i : Nat} (hi : i < h.length) (x : Option Node) :
    valD (h ++ [x]) i = valD h i := by
  unfold valD; rw [hget_alloc_old hi]

theorem levelOf_alloc_old {h : Heap} {i : Nat} (hi : i < h.length) (x : Option Node) :
    levelOf (h ++ [x]) i = levelOf h i := by
  unfold levelOf; rw [hget_alloc_old hi]

theorem nextLen_alloc_old {h : Heap} {i : Nat} (hi : i < h.length) (x : Option Node) :
    nextLen (h ++ [x]) i = nextLen h i := by
  unfold nextLen; rw [hget_alloc_old hi]

theorem hget_alloc_new (h : Heap) (n : Node) :
    hget (h ++ [some n]) h.length = some n := hget_append_self h (some n)

theorem nxt_alloc_new (h : Heap) (v : EV) (lvl M : Nat) :
    nxt (h ++ [some (mkNode v lvl)]) h.length M = none := by
  unfold nxt
  rw [hget_alloc_new]
  simp only [mkNode, List.getD_eq_getElem?_getD, List.getElem?_replicate]
  split <;> rfl

theorem valD_alloc_new (h : Heap) (v : EV) (lvl : Nat) :
    valD (h ++ [some (mkNode v lvl)]) h.length = v := by
  unfold valD
  rw [hget_alloc_new]
  rfl

theorem levelOf_alloc_new (h : Heap) (v : EV) (lvl : Nat) :
    levelOf (h ++ [some (mkNode v lvl)]) h.length = lvl := by
  unfold levelOf
  rw [hget_alloc_new]
  rfl

theorem nextLen_alloc_new (h : Heap) (v : EV) (lvl : Nat) :
    nextLen (h ++ [some (mkNode v lvl)]) h.length = lvl + 1 := by
  unfold nextLen
  rw [hget_alloc_new]
  simp [mkNode]

theorem liveD_alloc_new (h : Heap) (n : Node) :
    liveD (h ++ [some n]) h.length = true := by
  unfold liveD
  rw [hget_alloc_new]
  rfl

theorem Seg.append {h : Heap} {L i j k : Nat} {l1 l2 : List Nat}
    (h1 : Seg h L i l1 j) (h2 : Seg h L j l2 k) : Seg h L i (l1 ++ l2) k := by
  induction h1 with
  | nil => simpa using h2
  | cons hne hl hn _ ih => exact Seg.cons hne hl hn (ih h2)

theorem Seg.split {h : Heap} {L : Nat} {l1 l2 : List Nat} :
    ∀ {i k : Nat}, Seg h L i (l1 ++ l2) k → ∃ j, Seg h L i l1 j ∧ Seg h L j l2 k := by
  induction l1 with
  | nil => exact fun hs => ⟨_, Seg.nil _, hs⟩
  | cons x t ih =>
    intro i k hs
    cases hs with
    | cons hne hl hn hrest =>
      obtain ⟨j, hj1, hj2⟩ := ih hrest
      exact ⟨j, Seg.cons hne hl hn hj1, hj2⟩

theorem Seg.mem_live {h : Heap} {L i j : Nat} {l : List Nat} (hs : Seg h L i l j) :
    ∀ x ∈ l, liveD h x = true ∧ x ≠ tailId := by
  induction hs with
  | nil => simp
  | cons hne hl hn _ ih =>
    intro x hx
    rcases List.mem_cons.mp hx with rfl | hx
    · exact ⟨hl, hne⟩
    · exact ih x hx

theorem Seg.congr {h h' : Heap} {L i j : Nat} {l : List Nat} (hs : Seg h L i l j)
    (hsame : ∀ x ∈ l, liveD h' x = true ∧ nxt h' x L = nxt h x L) :
    Seg h' L i l j := by
  induction hs with
  | nil => exact Seg.nil _
  | cons hne hl hn hrest ih =>
    refine Seg.cons hne (hsame _ (by simp)).1 ((hsame _ (by simp)).2.trans hn) ?_
    exact ih fun x hx => hsame x (List.mem_cons_of_mem _ hx)

theorem Seg.toTail_det {h : Heap} {L : Nat} :
    ∀ {i : Nat} {l1 l2 : List Nat}, Seg h L i l1 tailId → Seg h L i l2 tailId → l1 = l2 := by
  intro i l1
  induction l1 generalizing i with
  | nil =>
    intro l2 h1 h2
    cases h1 with
    | nil =>
      cases h2 with
      | nil => rfl
      | cons hne _ _ _ => exact absurd rfl hne
  | cons x t ih =>
    intro l2 h1 h2
    cases h1 with
    | cons hne hl hn hrest =>
      cases h2 with
      | nil => exact absurd rfl hne
      | cons hne2 hl2 hn2 hrest2 =>
        rw [hn] at hn2
        cases hn2
        rw [ih hrest hrest2]

theorem Seg.src_mem {h : Heap} {L i j : Nat} {l : List Nat} (hs : Seg h L i l j)
    (hne : l ≠ []) : ∃ t, l = i :: t := by
  cases hs with
  | nil => exact absurd rfl hne
  | cons _ _ _ _ => exact ⟨_, rfl⟩

/-- Soundness of the fueled walk: a successful `chainFrom` is a `Seg`
ending at the tail. -/
theorem chainFrom_sound {h : Heap} {L : Nat} :
    ∀ {fuel i : Nat} {l : List Nat}, chainFrom h L fuel i = some l →
      Seg h L i l tailId ∧ l.length < fuel := by
  intro fuel
  induction fuel with
  | zero => intro i l hc; exact absurd hc (by simp [chainFrom])
  | succ f ih =>
    intro i l hc
    unfold chainFrom at hc
    by_cases hi : i = tailId
    · rw [if_pos hi] at hc
      cases hc
      subst hi
      exact ⟨Seg.nil _, by simp⟩
    · rw [if_neg hi] at hc
      cases hg : hget h i with
      | none => rw [hg] at hc; exact absurd hc (by simp)
      | some n =>
        simp only [hg] at hc
        cases hn : n.next.getD L none with
        | none => rw [hn] at hc; exact absurd hc (by simp)
        | some nx =>
          simp only [hn] at hc
          cases hrec : chainFrom h L f nx with
          | none => rw [hrec] at hc; exact absurd hc (by simp)
          | some l' =>
            simp only [hrec, Option.map_some] at hc
            cases hc
            obtain ⟨hseg, hlen⟩ := ih hrec
            refine ⟨Seg.cons hi (by simp [liveD, hg]) (by simp only [nxt, hg]; exact hn) hseg, ?_⟩
            simpa using hlen

/-- Completeness of the fueled walk: a `Seg` to the tail is recovered by
`chainFrom` whenever the fuel exceeds its length. -/
theorem chainFrom_complete {h : Heap} {L : Nat} :
    ∀ {l : List Nat} {i : Nat}, Seg h L i l tailId →
      ∀ {fuel : Nat}, l.length < fuel → chainFrom h L fuel i = some l := by
  intro l
  induction l with
  | nil =>
    intro i hs fuel hf
    cases hs with
    | nil =>
      cases fuel with
      | zero => simp at hf
      | succ f => simp [chainFrom]
  | cons x t ih =>
    intro i hs fuel hf
    cases hs with
    | cons hne hl hn hrest =>
      cases fuel with
      | zero => simp at hf
      | succ f =>
        unfold chainFrom
        rw [if_neg hne]
        unfold liveD at hl
        cases hg : hget h x with
        | none => rw [hg] at hl; simp at hl
        | some n =>
          have hn' := hn
          unfold nxt at hn'
          simp only [hg] at hn'
          simp only [hn']
          rw [ih hrest (by simpa using hf)]
          rfl

theorem chainAt_sound {h : Heap} {L : Nat} {c : List Nat} (hc : chainAt h L = some c) :
    Seg h L headId (headId :: c) tailId ∧ c.length < h.length + 1 := by
  unfold chainAt at hc
  cases hn : nxt h headId L with
  | none => rw [hn] at hc; exact absurd hc (by simp)
  | some i =>
    rw [hn] at hc
    obtain ⟨hseg, hlen⟩ := chainFrom_sound hc
    have hlive : liveD h headId = true := by
      unfold nxt at hn
      cases hg : hget h headId with
      | none => rw [hg] at hn; exact absurd hn (by simp)
      | some n => simp [liveD, hg]
    exact ⟨Seg.cons (by decide) hlive hn hseg, hlen⟩

theorem chainAt_complete {h : Heap} {L : Nat} {c : List Nat}
    (hs : Seg h L headId (headId :: c) tailId) (hlen : c.length < h.length + 1) :
    chainAt h L = some c := by
  cases hs with
  | cons hne hl hn hrest =>
    unfold chainAt
    rw [hn]
    exact chainFrom_complete hrest hlen

/-- The chain walk only depends on liveness and the level-`L` links. -/
theorem chainAt_congr {h h' : Heap} {L : Nat} {c : List Nat}
    (hc : chainAt h L = some c) (hlen : c.length < h'.length + 1)
    (hsame : ∀ x ∈ headId :: c, liveD h' x = true ∧ nxt h' x L = nxt h x L) :
    chainAt h' L = some c := by
  obtain ⟨hseg, _⟩ := chainAt_sound hc
  exact chainAt_complete (hseg.congr hsame) hlen

theorem Inv.init_holds : Inv init := by decide

/-- The level-`L` chain under the invariant, as a list. -/
theorem Inv.chainAt_eq {s : SL} (hs : Inv s) {L : Nat} (hL : L < maxLevels + 1) :
    chainAt s.heap L = some ((chain0 s.heap).filter (fun i => decide (L ≤ levelOf s.heap i))) := by
  have h1 := hs.chains L hL
  have h2 := hs.filterChar L hL
  cases hc : chainAt s.heap L with
  | none => rw [hc] at h1; simp at h1
  | some c => rw [hc] at h2; simp at h2; rw [h2]

theorem Inv.chain0_eq {s : SL} (hs : Inv s) : chainAt s.heap 0 = some (chain0 s.heap) := by
  have h1 := hs.chains 0 (by norm_num)
  unfold chain0
  cases hc : chainAt s.heap 0 with
  | none => rw [hc] at h1; simp at h1
  | some c => simp

/-- Chain elements are live. -/
theorem Inv.chain_live {s : SL} (hs : Inv s) {i : Nat} (hi : i ∈ chain0 s.heap) :
    liveD s.heap i = true := by
  obtain ⟨hseg, _⟩ := chainAt_sound hs.chain0_eq
  exact (hseg.mem_live i (List.mem_cons_of_mem _ hi)).1

theorem Inv.chain_lt_length {s : SL} (hs : Inv s) {i : Nat} (hi : i ∈ chain0 s.heap) :
    i < s.heap.length :=
  lt_length_of_liveD (hs.chain_live hi)

/-- Membership in the level-`L` chain. -/
theorem Inv.mem_chainAt {s : SL} (hs : Inv s) {L : Nat} (hL : L < maxLevels + 1) {i : Nat} :
    i ∈ (chainAt s.heap L).getD [] ↔ i ∈ chain0 s.heap ∧ L ≤ levelOf s.heap i := by
  rw [hs.chainAt_eq hL]
  simp [List.mem_filter]

theorem scanLess_eq_dest {h : Heap} {L : Nat} {v : EV} :
    ∀ {rest : List Nat} {i fuel : Nat}, Seg h L i (i :: rest) tailId →
      rest.length ≤ fuel → scanLess h v L fuel i = scanLessDest h v i rest := by
  intro rest
  induction rest with
  | nil =>
    intro i fuel hs _
    cases hs with
    | cons hne hl hn hrest =>
      cases hrest with
      | nil =>
        cases fuel with
        | zero => rfl
        | succ f => simp [scanLess, hn, scanLessDest]
  | cons y t ih =>
    intro i fuel hs hf
    cases hs with
    | cons hne hl hn hrest =>
      obtain ⟨t', ht'⟩ := hrest.src_mem (by simp)
      cases ht'
      cases fuel with
      | zero => simp at hf
      | succ f =>
        have hyt : y ≠ tailId := by
          cases hrest with
          | cons hne2 _ _ _ => exact hne2
        unfold scanLess
        simp only [hn]
        by_cases hless : evLess (valD h y) v = true
        · rw [if_pos (by simp [hyt, hless])]
          rw [ih hrest (by simpa using hf)]
          simp [scanLessDest, hless]
        · rw [if_neg (by simp [hyt]; simp at hless; simp [hless])]
          simp [scanLessDest]
          simp at hless
          simp [hless]
  termination_by rest => rest

theorem findScan_eq_dest {h : Heap} {L : Nat} {tg : EV} :
    ∀ {rest : List Nat} {i fuel : Nat}, Seg h L i (i :: rest) tailId →
      rest.length ≤ fuel → findScan h tg L fuel i = findScanDest h tg i rest := by
  intro rest
  induction rest with
  | nil =>
    intro i fuel hs _
    cases hs with
    | cons hne hl hn hrest =>
      cases hrest with
      | nil =>
        cases fuel with
        | zero => rfl
        | succ f => simp [findScan, hn, findScanDest]
  | cons y t ih =>
    intro i fuel hs hf
    cases hs with
    | cons hne hl hn hrest =>
      obtain ⟨t', ht'⟩ := hrest.src_mem (by simp)
      cases ht'
      cases fuel with
      | zero => simp at hf
      | succ f =>
        have hyt : y ≠ tailId := by
          cases hrest with
          | cons hne2 _ _ _ => exact hne2
        unfold findScan
        simp only [hn]
        by_cases hcond : (!is_equal (valD h i) tg && is_less_or_equal (valD h y) tg) = true
        · rw [if_pos (by simp [hyt]; simp at hcond; exact hcond)]
          rw [ih hrest (by simpa using hf)]
          simp [findScanDest, hcond]
        · rw [if_neg (by simp [hyt]; simp at hcond ⊢; exact hcond)]
          simp only [findScanDest]
          rw [if_neg hcond]

/-- Characterization of `scanLessDest`: it stops at the last node of the
maximal all-less prefix. -/
theorem scanLessDest_takeWhile {h : Heap} {v : EV} :
    ∀ {rest : List Nat} {i : Nat},
      scanLessDest h v i rest = (rest.takeWhile (fun j => evLess (valD h j) v)).getLastD i := by
  intro rest
  induction rest with
  | nil => intro i; rfl
  | cons y t ih =>
    intro i
    by_cases hless : evLess (valD h y) v = true
    · have h1 : scanLessDest h v i (y :: t) = scanLessDest h v y t := by
        simp [scanLessDest, hless]
      have h2 : List.takeWhile (fun j => evLess (valD h j) v) (y :: t)
          = y :: List.takeWhile (fun j => evLess (valD h j) v) t := by
        simp [List.takeWhile_cons, hless]
      rw [h1, h2, List.getLastD_cons, ih]
    · simp at hless
      simp [scanLessDest, hless, List.takeWhile_cons]

theorem scanLessDest_mem {h : Heap} {v : EV} :
    ∀ {rest : List Nat} {i : Nat}, scanLessDest h v i rest ∈ i :: rest := by
  intro rest
  induction rest with
  | nil => intro i; simp [scanLessDest]
  | cons y t ih =>
    intro i
    by_cases hless : evLess (valD h y) v = true
    · simp only [scanLessDest, hless, if_pos]
      have := ih (i := y)
      simp at this ⊢
      tauto
    · simp at hless
      simp [scanLessDest, hless]

theorem findScanDest_mem {h : Heap} {tg : EV} :
    ∀ {rest : List Nat} {i : Nat}, findScanDest h tg i rest ∈ i :: rest := by
  intro rest
  induction rest with
  | nil => intro i; simp [findScanDest]
  | cons y t ih =>
    intro i
    by_cases hcond : (!is_equal (valD h i) tg && is_less_or_equal (valD h y) tg) = true
    · simp only [findScanDest, hcond, if_pos]
      have := ih (i := y)
      simp at this ⊢
      tauto
    · simp only [findScanDest]
      rw [if_neg hcond]
      simp

/-- Along a `findScanDest` walk the result is the start or a node whose
value is `≤` the target. -/
theorem findScanDest_le {h : Heap} {tg : EV} :
    ∀ {rest : List Nat} {i : Nat}, findScanDest h tg i rest = i ∨
      is_less_or_equal (valD h (findScanDest h tg i rest)) tg = true := by
  intro rest
  induction rest with
  | nil => intro i; left; rfl
  | cons y t ih =>
    intro i
    by_cases hcond : (!is_equal (valD h i) tg && is_less_or_equal (valD h y) tg) = true
    · simp only [findScanDest, hcond, if_pos]
      rcases ih (i := y) with heq | hle
      · right; rw [heq]; exact (Bool.and_eq_true _ _ |>.mp hcond).2
      · right; exact hle
    · left
      simp only [findScanDest]
      rw [if_neg hcond]

/-- Full stop-condition analysis of `findScanDest`: the walk splits the
list as `pre ++ post`, stops at the last element of `i :: pre`, every
advanced-onto node has value `≤` the target, and at the stop either the
list is exhausted, or the current value equals the target, or the next
value exceeds the target. -/
theorem findScanDest_split {h : Heap} {tg : EV} :
    ∀ (rest : List Nat) (i : Nat), ∃ pre post,
      rest = pre ++ post ∧
      findScanDest h tg i rest = pre.getLastD i ∧
      (∀ x ∈ pre, is_less_or_equal (valD h x) tg = true) ∧
      (post = [] ∨ ∃ y post', post = y :: post' ∧
        (is_equal (valD h (pre.getLastD i)) tg = true ∨
         is_less_or_equal (valD h y) tg = false)) := by
  intro rest
  induction rest with
  | nil => exact fun i => ⟨[], [], by simp, rfl, by simp, Or.inl rfl⟩
  | cons y t ih =>
    intro i
    by_cases hcond : (!is_equal (valD h i) tg && is_less_or_equal (valD h y) tg) = true
    · obtain ⟨pre', post', hsplit, hdest, hle, hstop⟩ := ih y
      refine ⟨y :: pre', post', by simp [hsplit], ?_, ?_, ?_⟩
      · simp only [findScanDest, hcond, if_pos, List.getLastD_cons]
        exact hdest
      · intro x hx
        rcases List.mem_cons.mp hx with rfl | hx
        · exact (Bool.and_eq_true _ _ |>.mp hcond).2
        · exact hle x hx
      · rcases hstop with h1 | ⟨z, post'', hz, hor⟩
        · exact Or.inl h1
        · exact Or.inr ⟨z, post'', hz, by rwa [List.getLastD_cons]⟩
    · refine ⟨[], y :: t, by simp, ?_, by simp, ?_⟩
      · simp only [findScanDest]
        rw [if_neg hcond]
        rfl
      · refine Or.inr ⟨y, t, rfl, ?_⟩
        rcases Bool.eq_false_or_eq_true (is_equal (valD h i) tg) with he | he
        · left
          simpa using he
        · right
          simp [he] at hcond
          simpa using hcond

/-- Extract, from a path to the tail and a member, the sub-path from that
member. -/
theorem seg_from_mem {h : Heap} {L a x : Nat} {l : List Nat}
    (hs : Seg h L a l tailId) (hx : x ∈ l) :
    ∃ pre rest, l = pre ++ x :: rest ∧ Seg h L x (x :: rest) tailId := by
  obtain ⟨pre, rest, hsplit⟩ := List.append_of_mem hx
  subst hsplit
  obtain ⟨j, _, hj2⟩ := Seg.split hs
  obtain ⟨t', ht'⟩ := hj2.src_mem (by simp)
  have hjx : j = x := by
    have := ht'
    cases this
    rfl
  subst hjx
  exact ⟨pre, rest, rfl, hj2⟩

/-! ## The `find` descent -/

/-- Any list splits off its `getLastD`. -/
theorem cons_eq_append_getLastD {α : Type _} :
    ∀ (l : List α) (i : α), ∃ q, i :: l = q ++ [l.getLastD i]
  | [], i => ⟨[], rfl⟩
  | y :: t, i => by
    obtain ⟨q', hq'⟩ := cons_eq_append_getLastD t y
    refine ⟨i :: q', ?_⟩
    rw [List.getLastD_cons]
    simpa using congrArg (i :: ·) hq'

theorem dropWhile_append_all {α : Type _} {p : α → Bool} :
    ∀ {l1 l2 : List α}, (∀ x ∈ l1, p x = true) →
      List.dropWhile p (l1 ++ l2) = List.dropWhile p l2 := by
  intro l1
  induction l1 with
  | nil => simp
  | cons x t ih =>
    intro l2 hall
    rw [List.cons_append, List.dropWhile_cons]
    rw [if_pos (hall x (by simp))]
    exact ih fun z hz => hall z (by simp [hz])

/-- The sorted bottom chain, with the head sentinel in front. -/
theorem Inv.sorted_full {s : SL} (hs : Inv s) :
    List.Pairwise (fun a b => is_less_or_equal (valD s.heap a) (valD s.heap b) = true)
      (headId :: chain0 s.heap) := by
  rw [List.pairwise_cons]
  refine ⟨fun x _ => ?_, hs.sorted⟩
  rw [hs.headVal]
  exact isLE_minf _

theorem Inv.head_not_mem {s : SL} (hs : Inv s) : headId ∉ chain0 s.heap :=
  fun hmem => (hs.mem_ok _ hmem).1 rfl

theorem Inv.tail_not_mem {s : SL} (hs : Inv s) : tailId ∉ chain0 s.heap :=
  fun hmem => (hs.mem_ok _ hmem).2.1 rfl

theorem Inv.nodup_full {s : SL} (hs : Inv s) : (headId :: chain0 s.heap).Nodup := by
  rw [List.nodup_cons]
  exact ⟨hs.head_not_mem, hs.nodup⟩

/-- In a split `x :: l = l1 ++ curr :: rest` of a duplicate-free list,
the front element is not in `rest`. -/
theorem front_not_mem_rest {x curr : Nat} {l l1 rest : List Nat}
    (hnd : (x :: l).Nodup) (hsplit : x :: l = l1 ++ curr :: rest) : x ∉ rest := by
  have hx1 : x ∈ l1 ++ [curr] := by
    cases l1 with
    | nil =>
      simp at hsplit
      simp [hsplit.1]
    | cons a t =>
      have : a = x := by
        have := congrArg List.head? hsplit
        simpa using this.symm
      simp [this]
  have hnd2 : ((l1 ++ [curr]) ++ rest).Nodup := by
    have : (l1 ++ [curr]) ++ rest = l1 ++ curr :: rest := by simp
    rw [this, ← hsplit]
    exact hnd
  exact fun hxr => List.disjoint_of_nodup_append hnd2 hx1 hxr

/-- The nodes of the level-`L` chain, as bottom-chain members of level
`≥ L`. -/
theorem Inv.mem_chainL {s : SL} (hs : Inv s) {L : Nat} (hL : L < maxLevels + 1) {i : Nat} :
    i ∈ (chain0 s.heap).filter (fun j => decide (L ≤ levelOf s.heap j)) ↔
      i ∈ chain0 s.heap ∧ L ≤ levelOf s.heap i := by
  simp [List.mem_filter]

/-- One `find` scan preserves the descent invariant: the position is the
head sentinel or a stored node of sufficient level whose value is `≤` the
target. -/
theorem findScan_step {s : SL} (hs : Inv s) {tg : EV} {L curr : Nat} (hL : L < maxLevels + 1)
    (hcurr : curr = headId ∨ (curr ∈ chain0 s.heap ∧ L ≤ levelOf s.heap curr ∧
      is_less_or_equal (valD s.heap curr) tg = true)) :
    findScan s.heap tg L s.heap.length curr = headId ∨
      (findScan s.heap tg L s.heap.length curr ∈ chain0 s.heap ∧
       L ≤ levelOf s.heap (findScan s.heap tg L s.heap.length curr) ∧
       is_less_or_equal (valD s.heap (findScan s.heap tg L s.heap.length curr)) tg = true) := by
  have hcL := hs.chainAt_eq hL
  obtain ⟨hseg, _⟩ := chainAt_sound hcL
  have hndL : (headId :: (chain0 s.heap).filter
      (fun j => decide (L ≤ levelOf s.heap j))).Nodup := by
    rw [List.nodup_cons]
    refine ⟨fun hmem => ?_, hs.nodup.filter _⟩
    exact hs.head_not_mem (List.mem_of_mem_filter hmem)
  have hcurrmem : curr ∈ headId :: (chain0 s.heap).filter
      (fun j => decide (L ≤ levelOf s.heap j)) := by
    rcases hcurr with rfl | ⟨hmem, hlev, _⟩
    · simp
    · exact List.mem_cons_of_mem _ ((hs.mem_chainL hL).mpr ⟨hmem, hlev⟩)
  obtain ⟨pre, rest, hfull, hsegcurr⟩ := seg_from_mem hseg hcurrmem
  have hrestlen : rest.length ≤ s.heap.length := by
    have h1 : (headId :: (chain0 s.heap).filter
        (fun j => decide (L ≤ levelOf s.heap j))).length = pre.length + rest.length + 1 := by
      rw [hfull]
      simp
      omega
    have h2 := List.length_filter_le (fun j => decide (L ≤ levelOf s.heap j)) (chain0 s.heap)
    have h3 := hs.len_bound
    simp at h1
    omega
  rw [findScan_eq_dest hsegcurr hrestlen]
  have hmem : findScanDest s.heap tg curr rest ∈ curr :: rest := findScanDest_mem
  have hle : findScanDest s.heap tg curr rest = curr ∨
      is_less_or_equal (valD s.heap (findScanDest s.heap tg curr rest)) tg = true :=
    findScanDest_le
  rcases List.mem_cons.mp hmem with heq | hrest
  · rw [heq]
    exact hcurr
  · rcases hle with heq | hle2
    · rw [heq]
      exact hcurr
    · right
      have hrmem : findScanDest s.heap tg curr rest ∈ headId :: (chain0 s.heap).filter
          (fun j => decide (L ≤ levelOf s.heap j)) := by
        rw [hfull]
        exact List.mem_append_right _ (List.mem_cons_of_mem _ hrest)
      have hrne : findScanDest s.heap tg curr rest ≠ headId := by
        intro hhd
        exact front_not_mem_rest hndL hfull (hhd ▸ hrest)
      rcases List.mem_cons.mp hrmem with hbad | hgood
      · exact absurd hbad hrne
      · obtain ⟨hc0, hlev⟩ := (hs.mem_chainL hL).mp hgood
        exact ⟨hc0, hlev, hle2⟩

/-- The whole descent lands at a position satisfying the invariant, and
`find` is the bottom scan from there. -/
theorem findLevels_result {s : SL} (hs : Inv s) {tg : EV} :
    ∀ L, L < maxLevels + 1 → ∀ curr,
      (curr = headId ∨ (curr ∈ chain0 s.heap ∧ L ≤ levelOf s.heap curr ∧
        is_less_or_equal (valD s.heap curr) tg = true)) →
      ∃ p, (p = headId ∨ (p ∈ chain0 s.heap ∧
          is_less_or_equal (valD s.heap p) tg = true)) ∧
        findLevels s.heap tg L curr = findScan s.heap tg 0 s.heap.length p := by
  intro L
  induction L with
  | zero =>
    intro _ curr hcurr
    refine ⟨curr, ?_, rfl⟩
    rcases hcurr with rfl | ⟨h1, _, h3⟩
    · exact Or.inl rfl
    · exact Or.inr ⟨h1, h3⟩
  | succ M ih =>
    intro hL curr hcurr
    have hstep := findScan_step hs hL hcurr
    have hnext : findScan s.heap tg (M + 1) s.heap.length curr = headId ∨
        (findScan s.heap tg (M + 1) s.heap.length curr ∈ chain0 s.heap ∧
         M ≤ levelOf s.heap (findScan s.heap tg (M + 1) s.heap.length curr) ∧
         is_less_or_equal (valD s.heap (findScan s.heap tg (M + 1) s.heap.length curr)) tg
           = true) := by
      rcases hstep with h1 | ⟨h1, h2, h3⟩
      · exact Or.inl h1
      · exact Or.inr ⟨h1, by omega, h3⟩
    obtain ⟨p, hp, heq⟩ := ih (by omega) _ hnext
    exact ⟨p, hp, heq⟩

/-- Full characterization of `find`: the head-plus-bottom-chain splits as
`B ++ [find] ++ post`, where everything in `B` is `≤` the result,
everything in `post` is `≥` it, the result is the head sentinel or a
stored node with value `≤` the target, the stop was due to equality, an
exhausted chain, or a too-large next value, and the result's bottom-level
successor is the front of `post` (the tail when `post` is empty). -/
theorem find_spec (s : SL) (hs : Inv s) (tg : EV) :
    ∃ B post, headId :: chain0 s.heap = B ++ find s tg :: post ∧
      (∀ x ∈ B, is_less_or_equal (valD s.heap x) (valD s.heap (find s tg)) = true) ∧
      (∀ y ∈ post, is_less_or_equal (valD s.heap (find s tg)) (valD s.heap y) = true) ∧
      (find s tg = headId ∨ (find s tg ∈ chain0 s.heap ∧
        is_less_or_equal (valD s.heap (find s tg)) tg = true)) ∧
      (is_equal (valD s.heap (find s tg)) tg = true ∨ post = [] ∨
        ∃ y post', post = y :: post' ∧ is_less_or_equal (valD s.heap y) tg = false) ∧
      nxt s.heap (find s tg) 0 = some (post.headD tailId) := by
  obtain ⟨p, hp, heq⟩ := findLevels_result hs maxLevels (by omega) headId (Or.inl rfl)
  have hfind : find s tg = findScan s.heap tg 0 s.heap.length p := heq
  obtain ⟨hseg, _⟩ := chainAt_sound hs.chain0_eq
  have hpmem : p ∈ headId :: chain0 s.heap := by
    rcases hp with rfl | ⟨h1, _⟩
    · simp
    · exact List.mem_cons_of_mem _ h1
  obtain ⟨pre0, rest0, hfull0, hsegp⟩ := seg_from_mem hseg hpmem
  have hrestlen : rest0.length ≤ s.heap.length := by
    have h1 := congrArg List.length hfull0
    have h3 := hs.len_bound
    simp at h1
    omega
  rw [findScan_eq_dest hsegp hrestlen] at hfind
  obtain ⟨pre, post, hsplit, hdest, hpreLE, hstop⟩ :=
    @findScanDest_split s.heap tg rest0 p
  rw [hdest] at hfind
  obtain ⟨q, hq⟩ := cons_eq_append_getLastD pre p
  have hFULL : headId :: chain0 s.heap = (pre0 ++ q) ++ pre.getLastD p :: post := by
    rw [hfull0, hsplit]
    have : p :: (pre ++ post) = (p :: pre) ++ post := by simp
    rw [this, hq]
    simp
  have hpairFULL := hs.sorted_full
  rw [hFULL] at hpairFULL
  have hpair1 := List.pairwise_append.mp hpairFULL
  have hB : ∀ x ∈ pre0 ++ q,
      is_less_or_equal (valD s.heap x) (valD s.heap (pre.getLastD p)) = true :=
    fun x hx => hpair1.2.2 x hx _ (by simp)
  have hpost : ∀ y ∈ post,
      is_less_or_equal (valD s.heap (pre.getLastD p)) (valD s.heap y) = true := by
    have := hpair1.2.1
    rw [List.pairwise_cons] at this
    exact this.1
  have hr_in : pre.getLastD p ∈ p :: pre := List.getLastD_mem_cons pre p
  have hr_prop : pre.getLastD p = headId ∨ (pre.getLastD p ∈ chain0 s.heap ∧
      is_less_or_equal (valD s.heap (pre.getLastD p)) tg = true) := by
    rcases List.mem_cons.mp hr_in with hrp | hrpre
    · rw [hrp]
      exact hp
    · have hrLE := hpreLE _ hrpre
      have hr_mem_rest : pre.getLastD p ∈ rest0 := by
        rw [hsplit]
        exact List.mem_append_left _ hrpre
      have hr_full : pre.getLastD p ∈ headId :: chain0 s.heap := by
        rw [hfull0]
        exact List.mem_append_right _ (List.mem_cons_of_mem _ hr_mem_rest)
      have hrne : pre.getLastD p ≠ headId := by
        intro hhd
        exact front_not_mem_rest hs.nodup_full hfull0 (hhd ▸ hr_mem_rest)
      rcases List.mem_cons.mp hr_full with hbad | hgood
      · exact absurd hbad hrne
      · exact Or.inr ⟨hgood, hrLE⟩
  have hsucc : nxt s.heap (pre.getLastD p) 0 = some (post.headD tailId) := by
    have hseg2 := hseg
    rw [hFULL] at hseg2
    obtain ⟨j, _, hj2⟩ := Seg.split hseg2
    cases hj2 with
    | cons hne hl hn hrest2 =>
      cases hpost2 : post with
      | nil =>
        rw [hpost2] at hrest2
        cases hrest2 with
        | nil => simpa using hn
      | cons y post' =>
        rw [hpost2] at hrest2
        obtain ⟨t', ht'⟩ := hrest2.src_mem (by simp)
        cases ht'
        simpa using hn
  refine ⟨pre0 ++ q, post, by rw [hfind]; exact hFULL, by rw [hfind]; exact hB,
    by rw [hfind]; exact hpost, by rw [hfind]; exact hr_prop,
    ?_, by rw [hfind]; exact hsucc⟩
  rw [hfind]
  rcases hstop with h1 | ⟨y, post', hy, h2 | h2⟩
  · exact Or.inr (Or.inl h1)
  · exact Or.inl h2
  · exact Or.inr (Or.inr ⟨y, post', hy, h2⟩)

theorem nodup_split_self {x : Nat} {l B post : List Nat} (hnd : (x :: l).Nodup)
    (h : x :: l = B ++ x :: post) : B = [] ∧ l = post := by
  cases B with
  | nil =>
    rw [List.nil_append] at h
    injection h with _ h2
    exact ⟨rfl, h2⟩
  | cons a B' =>
    have ha : a = x := by
      have := congrArg List.head? h
      simpa using this.symm
    subst ha
    rw [List.cons_append] at h
    injection h with _ h2
    have hxl : a ∈ l := by rw [h2]; simp
    rw [List.nodup_cons] at hnd
    exact (hnd.1 hxl).elim

theorem isLE_false_less {a b : EV} (h : is_less_or_equal a b = false) :
    evLess b a = true := by
  simpa [is_less_or_equal] using h

/-- C2: on an invariant-satisfying state, `find` is a floor search. -/
theorem C2_find_floor (s : SL) (hs : Inv s) (t : Int) : findFloorOK s t := by
  obtain ⟨B, post, hFULL, hB, hpost, hr_prop, hstop, _⟩ := find_spec s hs (.fin t)
  have hlive : liveD s.heap (find s (.fin t)) = true := by
    rcases hr_prop with hrh | ⟨h1, _⟩
    · rw [hrh]; exact hs.headLive
    · exact hs.chain_live h1
  have hnt : find s (.fin t) ≠ tailId := by
    rcases hr_prop with hrh | ⟨h1, _⟩
    · rw [hrh]; decide
    · exact fun hteq => hs.tail_not_mem (hteq ▸ h1)
  have hpairFULL := hs.sorted_full
  rw [hFULL] at hpairFULL
  have hpair := List.pairwise_append.mp hpairFULL
  have hpostsort := (List.pairwise_cons.mp hpair.2.1).2
  have hpost_gt : ∀ y post', post = y :: post' →
      is_less_or_equal (valD s.heap y) (.fin t) = false →
      ∀ i ∈ post, is_less_or_equal (valD s.heap i) (.fin t) = false := by
    intro y post' hy hyf i hi
    subst hy
    rcases List.mem_cons.mp hi with rfl | hi'
    · exact hyf
    · have hyi := (List.pairwise_cons.mp hpostsort).1 i hi'
      by_contra hcon
      have hle : is_less_or_equal (valD s.heap i) (.fin t) = true := by
        simpa using hcon
      have := isLE_trans hyi hle
      rw [this] at hyf
      cases hyf
  have hmem_cases : ∀ i ∈ chain0 s.heap, i ∈ B ∨ i = find s (.fin t) ∨ i ∈ post := by
    intro i hi
    have hmem : i ∈ B ++ find s (.fin t) :: post := by
      rw [← hFULL]
      exact List.mem_cons_of_mem _ hi
    simp at hmem
    tauto
  refine ⟨hlive, hnt, ?_, ?_⟩
  · rintro ⟨i0, hi0mem, hi0le⟩
    have hrc0 : find s (.fin t) ∈ chain0 s.heap ∧
        is_less_or_equal (valD s.heap (find s (.fin t))) (.fin t) = true := by
      rcases hr_prop with hrh | h
      · exfalso
        obtain ⟨_, hc0post⟩ := nodup_split_self hs.nodup_full (hrh ▸ hFULL)
        rcases hstop with hequal | hpost0 | ⟨y, post', hy, hyf⟩
        · rw [hrh, hs.headVal] at hequal
          rw [is_equal_minf_fin] at hequal
          cases hequal
        · rw [hc0post, hpost0] at hi0mem
          simp at hi0mem
        · have hfalse := hpost_gt y post' hy hyf i0 (hc0post ▸ hi0mem)
          rw [hi0le] at hfalse
          cases hfalse
      · exact h
    refine ⟨hrc0.1, hrc0.2, ?_⟩
    intro i hi hile
    rcases hmem_cases i hi with hiB | hieq | hipost
    · exact hB i hiB
    · rw [hieq]
      exact isLE_refl _
    · rcases hstop with hequal | hpost0 | ⟨y, post', hy, hyf⟩
      · obtain ⟨rv, hrv⟩ := isFin_iff.mp (hs.mem_ok _ hrc0.1).2.2.1
        rw [hrv] at hequal
        have hrvt := is_equal_fin.mp hequal
        obtain ⟨vi, hvi⟩ := isFin_iff.mp (hs.mem_ok i hi).2.2.1
        rw [hvi, hrv, isLE_fin]
        rw [hvi, isLE_fin] at hile
        omega
      · rw [hpost0] at hipost
        simp at hipost
      · have hfalse := hpost_gt y post' hy hyf i hipost
        rw [hile] at hfalse
        cases hfalse
  · intro hall
    rcases hr_prop with hrh | ⟨hrc, hrle⟩
    · exact hrh
    · exfalso
      have h1 : evLess (.fin t) (valD s.heap (find s (.fin t))) = true := hall _ hrc
      have h2 := less_of_isLE_of_less hrle h1
      rw [evLess_irrefl] at h2
      cases h2

/-- C6: on an invariant-satisfying state, `find_first` is a lower-bound
search. -/
theorem C6_find_first_lower_bound (s : SL) (hs : Inv s) (t : Int) : findFirstOK s t := by
  obtain ⟨B, post, hFULL, hB, hpost, hr_prop, hstop, hsucc⟩ := find_spec s hs (.fin t)
  by_cases hequal : is_equal (valD s.heap (find s (.fin t))) (.fin t) = true
  · have hff : find_first s (.fin t) = find s (.fin t) := by
      unfold find_first
      simp [hequal]
    have hrc : find s (.fin t) ∈ chain0 s.heap := by
      rcases hr_prop with hrh | ⟨h1, _⟩
      · rw [hrh, hs.headVal, is_equal_minf_fin] at hequal
        cases hequal
      · exact h1
    obtain ⟨rv, hrv⟩ := isFin_iff.mp (hs.mem_ok _ hrc).2.2.1
    rw [hrv] at hequal
    have hrvt := is_equal_fin.mp hequal
    refine Or.inl ⟨hff ▸ hrc, ?_⟩
    rw [hff, hrv, hrvt]
  · have hef : is_equal (valD s.heap (find s (.fin t))) (.fin t) = false := by
      simpa using hequal
    have hff : find_first s (.fin t) = (nxt s.heap (find s (.fin t)) 0).getD
        (find s (.fin t)) := by
      unfold find_first
      simp [hef]
    rcases hstop with hequal2 | hpost0 | ⟨y, post', hy, hyf⟩
    · rw [hef] at hequal2
      cases hequal2
    · have hfftail : find_first s (.fin t) = tailId := by
        rw [hff, hsucc, hpost0]
        rfl
      refine Or.inr (Or.inr ⟨hfftail, ?_⟩)
      rcases hr_prop with hrh | ⟨hrc, hrle⟩
      · obtain ⟨_, hc0⟩ := nodup_split_self hs.nodup_full (hrh ▸ hFULL)
        rw [hc0, hpost0]
        simp
      · obtain ⟨rv, hrv⟩ := isFin_iff.mp (hs.mem_ok _ hrc).2.2.1
        have hrvne : rv ≠ t := by
          intro hrt
          rw [hrv, hrt] at hef
          rw [is_equal_fin.mpr rfl] at hef
          cases hef
        have hrvlt : rv < t := by
          rw [hrv, isLE_fin] at hrle
          omega
        intro i hi
        have hmem : i ∈ B ++ find s (.fin t) :: post := by
          rw [← hFULL]
          exact List.mem_cons_of_mem _ hi
        rw [hpost0] at hmem
        simp at hmem
        rcases hmem with hiB | hieq
        · have h1 := hB i hiB
          have h2 : evLess (valD s.heap (find s (.fin t))) (.fin t) = true := by
            rw [hrv, evLess_fin]
            omega
          exact less_of_isLE_of_less h1 h2
        · rw [hieq, hrv, evLess_fin]
          omega
    · have hffy : find_first s (.fin t) = y := by
        rw [hff, hsucc, hy]
        rfl
      refine Or.inr (Or.inl ?_)
      rw [hffy]
      rcases hr_prop with hrh | ⟨hrc, hrle⟩
      · obtain ⟨_, hc0⟩ := nodup_split_self hs.nodup_full (hrh ▸ hFULL)
        rw [hc0, hy, List.dropWhile_cons, if_neg (by simp [hyf])]
        rfl
      · cases hBc : B with
        | nil =>
          exfalso
          rw [hBc, List.nil_append] at hFULL
          injection hFULL with h1 _
          exact hs.head_not_mem (h1 ▸ hrc)
        | cons b B' =>
          have hbhead : b = headId := by
            have := congrArg List.head? (hBc ▸ hFULL)
            simpa using this.symm
          have hc0 : chain0 s.heap = B' ++ find s (.fin t) :: post := by
            rw [hBc, hbhead, List.cons_append] at hFULL
            injection hFULL with _ h2
          have hall : ∀ x ∈ B' ++ [find s (.fin t)],
              is_less_or_equal (valD s.heap x) (.fin t) = true := by
            intro x hx
            rcases List.mem_append.mp hx with hxB | hxr
            · have h1 := hB x (by rw [hBc]; exact List.mem_cons_of_mem _ hxB)
              exact isLE_trans h1 hrle
            · simp at hxr
              rw [hxr]
              exact hrle
          rw [hc0, hy]
          have hassoc : B' ++ find s (.fin t) :: y :: post'
              = (B' ++ [find s (.fin t)]) ++ y :: post' := by simp
          rw [hassoc, dropWhile_append_all hall, List.dropWhile_cons,
            if_neg (by simp [hyf])]
          rfl

set_option maxHeartbeats 4000000 in
/-- C2 witness. -/
theorem C2_find_floor_witness : Inv wstateA ∧ findFloorOK wstateA 15 :=
  ⟨by decide, C2_find_floor wstateA (by decide) 15⟩

set_option maxHeartbeats 4000000 in
/-- C6 witness. -/
theorem C6_find_first_lower_bound_witness : Inv wstateA ∧ findFirstOK wstateA 15 :=
  ⟨by decide, C6_find_first_lower_bound wstateA (by decide) 15⟩

set_option maxHeartbeats 4000000 in
/-- C1 (code bug): a legal operation sequence — insert 5 (handle 2),
insert 5 (handle 3), remove handle 2 — produces a state whose bottom-level
chain no longer reaches the tail through live nodes: the live node 3 still
points to the freed address 2, and the invariant fails, although it held
before the removal and the removed handle was a stored node. -/
theorem C1_remove_duplicate_breaks_invariant :
    Inv dupPre ∧ (2 ∈ chain0 dupPre.heap) ∧
    chainAt dupPost.heap 0 = none ∧
    nxt dupPost.heap 3 0 = some 2 ∧
    hget dupPost.heap 2 = none ∧
    ¬ Inv dupPost := by decide

set_option maxHeartbeats 4000000 in
/-- C3 (code bug): removing the non-first duplicate decrements the size,
but the node is freed while still linked: the traversal from `front`
reaches the freed address 2 in one bottom-level step, at level 1 as well,
so the removed node is not unlinked from every level's chain. -/
theorem C3_remove_duplicate_not_unlinked :
    dupPost.size = dupPre.size - 1 ∧
    front dupPost = 3 ∧
    nxt dupPost.heap 3 0 = some 2 ∧
    nxt dupPost.heap 3 1 = some 2 ∧
    hget dupPost.heap 2 = none := by decide

set_option maxHeartbeats 4000000 in
/-- C8 (code bug): after the duplicate removal the backward chain is
`[3]`, but the forward bottom-level chain is corrupted (it runs into the
freed node and never reaches the tail), so backward traversal is not the
reverse of forward traversal; before the removal the symmetry held. -/
theorem C8_backward_symmetry_broken :
    backChain dupPre.heap = (chainAt dupPre.heap 0).map List.reverse ∧
    backChain dupPost.heap = some [3] ∧
    backChain dupPost.heap ≠ (chainAt dupPost.heap 0).map List.reverse := by decide

/-! ## List lemmas for the insertion machinery -/

theorem takeWhile_append_all {α : Type _} {p : α → Bool} :
    ∀ {l1 l2 : List α}, (∀ x ∈ l1, p x = true) →
      (l1 ++ l2).takeWhile p = l1 ++ l2.takeWhile p := by
  intro l1
  induction l1 with
  | nil => simp
  | cons x t ih =>
    intro l2 hall
    rw [List.cons_append, List.takeWhile_cons, if_pos (hall x (by simp))]
    rw [ih fun z hz => hall z (by simp [hz])]
    rfl

theorem takeWhile_congr_mem {α : Type _} {p q : α → Bool} :
    ∀ {l : List α}, (∀ x ∈ l, p x = q x) → l.takeWhile p = l.takeWhile q := by
  intro l
  induction l with
  | nil => simp
  | cons x t ih =>
    intro hall
    rw [List.takeWhile_cons, List.takeWhile_cons, hall x (by simp),
      ih fun z hz => hall z (by simp [hz])]

theorem getLastD_append2 {α : Type _} :
    ∀ (l1 l2 : List α) (d : α), (l1 ++ l2).getLastD d = l2.getLastD (l1.getLastD d) := by
  intro l1
  induction l1 with
  | nil => simp
  | cons x t ih =>
    intro l2 d
    rw [List.cons_append, List.getLastD_cons, List.getLastD_cons, ih]

/-- On a sorted (by `R`) list with a downward-closed predicate,
`takeWhile` is `filter`. -/
theorem takeWhile_eq_filter_sorted {α : Type _} {R : α → α → Prop} {p : α → Bool} :
    ∀ {l : List α}, List.Pairwise R l →
      (∀ a b, R a b → p b = true → p a = true) →
      l.takeWhile p = l.filter p := by
  intro l
  induction l with
  | nil => intro _ _; rfl
  | cons x t ih =>
    intro hpair hdc
    rw [List.pairwise_cons] at hpair
    cases hx : p x with
    | true =>
      rw [List.takeWhile_cons, if_pos hx, List.filter_cons, if_pos hx, ih hpair.2 hdc]
    | false =>
      rw [List.takeWhile_cons, if_neg (by simp [hx]), List.filter_cons, if_neg (by simp [hx])]
      have hnone : ∀ y ∈ t, p y = false := by
        intro y hy
        cases hyp : p y with
        | false => rfl
        | true =>
          rw [hdc x y (hpair.1 y hy) hyp] at hx
          cases hx
      rw [List.filter_eq_nil_iff.mpr (by intro a ha; simp [hnone a ha])]

/-- Dually, `dropWhile` is the complementary `filter` on a sorted list. -/
theorem dropWhile_eq_filter_sorted {α : Type _} {R : α → α → Prop} {p : α → Bool} :
    ∀ {l : List α}, List.Pairwise R l →
      (∀ a b, R a b → p b = true → p a = true) →
      l.dropWhile p = l.filter (fun a => !(p a)) := by
  intro l
  induction l with
  | nil => intro _ _; rfl
  | cons x t ih =>
    intro hpair hdc
    rw [List.pairwise_cons] at hpair
    cases hx : p x with
    | true =>
      rw [List.dropWhile_cons, if_pos hx, List.filter_cons, if_neg (by simp [hx]),
        ih hpair.2 hdc]
    | false =>
      rw [List.dropWhile_cons, if_neg (by simp [hx]), List.filter_cons, if_pos (by simp [hx])]
      have hall : ∀ y ∈ t, p y = false := by
        intro y hy
        cases hyp : p y with
        | false => rfl
        | true =>
          rw [hdc x y (hpair.1 y hy) hyp] at hx
          cases hx
      rw [List.filter_eq_self.mpr (by intro a ha; simp [hall a ha])]

/-- The scan's landing spot: on the duplicate-free path `x0 :: c` with `c`
sorted, scanning from any `curr` in the `p`-true region lands at the last
element of the global `p`-true prefix. -/
theorem last_takeWhile_suffix {x0 : Nat} {c : List Nat} {pre rest : List Nat} {curr : Nat}
    {V : Nat → EV} {v : EV}
    (hnd : (x0 :: c).Nodup) (hsplit : x0 :: c = pre ++ curr :: rest)
    (hpair : List.Pairwise (fun a b => is_less_or_equal (V a) (V b) = true) c)
    (hcurr : curr = x0 ∨ (curr ∈ c ∧ evLess (V curr) v = true)) :
    (rest.takeWhile (fun j => evLess (V j) v)).getLastD curr
      = (c.takeWhile (fun j => evLess (V j) v)).getLastD x0 := by
  rcases hcurr with rfl | ⟨hmem, hP⟩
  · obtain ⟨hpre, hrest⟩ := nodup_split_self hnd hsplit
    rw [hrest]
  · cases pre with
    | nil =>
      rw [List.nil_append] at hsplit
      injection hsplit with h1 _
      rw [List.nodup_cons] at hnd
      subst h1
      exact (hnd.1 hmem).elim
    | cons a pre' =>
      have ha : a = x0 := by
        have := congrArg List.head? hsplit
        simpa using this.symm
      subst ha
      rw [List.cons_append] at hsplit
      injection hsplit with _ h2
      have hallpre : ∀ x ∈ pre' ++ [curr], evLess (V x) v = true := by
        intro x hx
        rcases List.mem_append.mp hx with hxp | hxc
        · have hpair2 := hpair
          rw [h2] at hpair2
          have hcross := (List.pairwise_append.mp hpair2).2.2 x hxp curr (by simp)
          exact less_of_isLE_of_less hcross hP
        · simp at hxc
          rw [hxc]
          exact hP
      have hc2 : c = (pre' ++ [curr]) ++ rest := by rw [h2]; simp
      rw [hc2, takeWhile_append_all hallpre, getLastD_append2, List.getLastD_concat]

/-- Elements of a level chain are bottom-chain members. -/
theorem Inv.chainL_sub {s : SL} (hs : Inv s) {L : Nat} (hL : L < maxLevels + 1) {x : Nat}
    (hx : x ∈ (chainAt s.heap L).getD []) : x ∈ chain0 s.heap ∧ L ≤ levelOf s.heap x := by
  rw [hs.chainAt_eq hL] at hx
  simpa using List.mem_filter.mp hx

theorem Inv.chainL_nodup {s : SL} (hs : Inv s) {L : Nat} (hL : L < maxLevels + 1) :
    (headId :: (chainAt s.heap L).getD []).Nodup := by
  rw [hs.chainAt_eq hL]
  rw [List.nodup_cons]
  constructor
  · intro hmem
    exact hs.head_not_mem (List.mem_of_mem_filter hmem)
  · exact hs.nodup.filter _

theorem Inv.chainL_sorted {s : SL} (hs : Inv s) {L : Nat} (hL : L < maxLevels + 1) :
    List.Pairwise (fun a b => is_less_or_equal (valD s.heap a) (valD s.heap b) = true)
      ((chainAt s.heap L).getD []) := by
  rw [hs.chainAt_eq hL]
  exact List.Pairwise.sublist (List.filter_sublist _) hs.sorted

theorem Inv.chainL_len {s : SL} (hs : Inv s) {L : Nat} (hL : L < maxLevels + 1) :
    ((chainAt s.heap L).getD []).length ≤ (chain0 s.heap).length := by
  rw [hs.chainAt_eq hL]
  simpa using List.length_filter_le _ _

/-- The elements of `twAt`: members of the level chain that are strictly
less than the inserted value. -/
theorem twAt_mem {s : SL} {v : Int} {L : Nat} {x : Nat} (hx : x ∈ twAt s v L) :
    x ∈ (chainAt s.heap L).getD [] ∧ evLess (valD s.heap x) (EV.fin v) = true := by
  unfold twAt at hx
  refine ⟨(List.takeWhile_sublist _).subset hx, ?_⟩
  simpa using List.mem_takeWhile_imp hx

/-- `posAt` is the head sentinel or a `twAt` member. -/
theorem posAt_cases (s : SL) (v : Int) (L : Nat) :
    posAt s v L = headId ∨ posAt s v L ∈ twAt s v L := by
  have := List.getLastD_mem_cons (twAt s v L) headId
  rcases List.mem_cons.mp this with h | h
  · exact Or.inl h
  · exact Or.inr h

/-- Under the invariant, the level chain in any heap that agrees with
`s.heap` on liveness and level-`L` links is the invariant chain. -/
theorem chainAt_agree {s : SL} (hs : Inv s) {L : Nat} (hL : L < maxLevels + 1) {t : Heap}
    (hlen : (chain0 s.heap).length < t.length + 1)
    (hsame : ∀ x, x < s.heap.length →
      liveD t x = liveD s.heap x ∧ nxt t x L = nxt s.heap x L) :
    chainAt t L = some ((chainAt s.heap L).getD []) := by
  have hc := hs.chainAt_eq hL
  refine chainAt_congr (by rw [hc]; rfl) ?_ ?_
  · calc ((chainAt s.heap L).getD []).length ≤ (chain0 s.heap).length := hs.chainL_len hL
      _ < t.length + 1 := hlen
  · intro x hx
    have hxlen : x < s.heap.length := by
      rcases List.mem_cons.mp hx with rfl | hmem
      · exact lt_length_of_liveD hs.headLive
      · exact hs.chain_lt_length (hs.chainL_sub hL hmem).1
    have hlive : liveD s.heap x = true := by
      rcases List.mem_cons.mp hx with rfl | hmem
      · exact hs.headLive
      · exact hs.chain_live (hs.chainL_sub hL hmem).1
    exact ⟨(hsame x hxlen).1.trans hlive, (hsame x hxlen).2⟩

/-- The descent's scan at level `L` lands exactly at `posAt s v L`. -/
theorem scan_lands {s : SL} (hs : Inv s) {v : Int} {k L : Nat} {t : Heap} {curr : Nat}
    (hL : L ≤ maxLevels) (hinv : LoopInv s v k L t curr) :
    scanLess t (EV.fin v) L t.length curr = posAt s v L := by
  obtain ⟨hlen, hold, hnew, hlow, _, _, hcurr⟩ := hinv
  have hL6 : L < maxLevels + 1 := by omega
  have hchain : chainAt t L = some ((chainAt s.heap L).getD []) := by
    refine chainAt_agree hs hL6 (by rw [hlen]; have := hs.len_bound; omega) ?_
    intro x hx
    exact ⟨(hold x hx).1, hlow x L hx le_rfl⟩
  obtain ⟨hseg, _⟩ := chainAt_sound hchain
  have hcurrmem : curr ∈ headId :: (chainAt s.heap L).getD [] := by
    rcases hcurr with rfl | ⟨hmem, hlev, _⟩
    · simp
    · refine List.mem_cons_of_mem _ ?_
      rw [hs.chainAt_eq hL6]
      exact List.mem_filter.mpr ⟨hmem, by simp; omega⟩
  obtain ⟨pre, rest, hfull, hsegcurr⟩ := seg_from_mem hseg hcurrmem
  have hrestlen : rest.length ≤ t.length := by
    have h1 := congrArg List.length hfull
    have h2 := hs.chainL_len hL6
    have h3 := hs.len_bound
    simp at h1
    omega
  rw [scanLess_eq_dest hsegcurr hrestlen, scanLessDest_takeWhile]
  have hpred : ∀ x ∈ rest, (evLess (valD t x) (EV.fin v)) = (evLess (valD s.heap x) (EV.fin v)) := by
    intro x hx
    have hxfull : x ∈ headId :: (chainAt s.heap L).getD [] := by
      rw [hfull]
      exact List.mem_append_right _ (List.mem_cons_of_mem _ hx)
    have hxlen : x < s.heap.length := by
      rcases List.mem_cons.mp hxfull with rfl | hmem
      · exact lt_length_of_liveD hs.headLive
      · exact hs.chain_lt_length (hs.chainL_sub hL6 hmem).1
    rw [(hold x hxlen).2.1]
  rw [takeWhile_congr_mem hpred]
  have hcurr' : curr = headId ∨ (curr ∈ (chainAt s.heap L).getD [] ∧
      evLess (valD s.heap curr) (EV.fin v) = true) := by
    rcases hcurr with rfl | ⟨hmem, hlev, hless⟩
    · exact Or.inl rfl
    · refine Or.inr ⟨?_, hless⟩
      rw [hs.chainAt_eq hL6]
      exact List.mem_filter.mpr ⟨hmem, by simp; omega⟩
  exact last_takeWhile_suffix (hs.chainL_nodup hL6) hfull (hs.chainL_sorted hL6) hcurr'

/-- Position facts about `posAt`. -/
theorem posAt_facts {s : SL} (hs : Inv s) {v : Int} {L : Nat} (hL : L < maxLevels + 1) :
    posAt s v L < s.heap.length ∧ liveD s.heap (posAt s v L) = true ∧
    L ≤ levelOf s.heap (posAt s v L) ∧ L < nextLen s.heap (posAt s v L) ∧
    posAt s v L ≠ tailId := by
  rcases posAt_cases s v L with h | h
  · rw [h]
    refine ⟨lt_length_of_liveD hs.headLive, hs.headLive, ?_, ?_, by decide⟩
    · rw [hs.headLevel]; omega
    · rw [hs.headLen]; omega
  · obtain ⟨hmem, _⟩ := twAt_mem h
    obtain ⟨hc0, hlev⟩ := hs.chainL_sub hL hmem
    obtain ⟨_, hnt, _, _, hlen⟩ := hs.mem_ok _ hc0
    exact ⟨hs.chain_lt_length hc0, hs.chain_live hc0, hlev, by omega, hnt⟩

/-- The splice successor: the level-`L` forward pointer of `posAt` in any
heap agreeing with `s.heap` at level `L` is `succAt`. -/
theorem succAt_nxt {s : SL} (hs : Inv s) {v : Int} {L : Nat} (hL : L < maxLevels + 1)
    {t : Heap} (hchain : chainAt t L = some ((chainAt s.heap L).getD [])) :
    nxt t (posAt s v L) L = some (succAt s v L) := by
  obtain ⟨q, hq⟩ := cons_eq_append_getLastD (twAt s v L) headId
  have hfull : headId :: (chainAt s.heap L).getD [] = q ++ posAt s v L :: dwAt s v L := by
    have hsplit : (chainAt s.heap L).getD [] = twAt s v L ++ dwAt s v L :=
      (List.takeWhile_append_dropWhile _ _).symm
    rw [hsplit]
    have : headId :: (twAt s v L ++ dwAt s v L) = (headId :: twAt s v L) ++ dwAt s v L := by
      simp
    rw [this, hq]
    simp [posAt]
  obtain ⟨hseg, _⟩ := chainAt_sound hchain
  rw [hfull] at hseg
  obtain ⟨j, _, hseg2⟩ := Seg.split hseg
  cases hseg2 with
  | cons hne hl hn hseg3 =>
    cases hdw : dwAt s v L with
    | nil =>
      rw [hdw] at hseg3
      cases hseg3 with
      | nil => rw [show succAt s v L = tailId by simp [succAt, hdw]]; exact hn
    | cons d dd =>
      rw [hdw] at hseg3
      cases hseg3 with
      | cons _ _ _ _ =>
        simp only [succAt, hdw, List.headD]
        exact hn

/-- One level of the insertion descent: the scan lands at `posAt`, and
the splice (at levels `≤ nodeLevel`) updates exactly the two expected
forward pointers. -/
theorem insert_step {s : SL} (hs : Inv s) {v : Int} {k L : Nat} {t : Heap} {curr : Nat}
    (hk : k ≤ maxLevels) (hL : L ≤ maxLevels) (hinv : LoopInv s v k L t curr)
    {t' : Heap}
    (ht' : t' = if L ≤ k then spliceAt t s.heap.length L (posAt s v L) else t) :
    scanLess t (EV.fin v) L t.length curr = posAt s v L ∧
    t'.length = s.heap.length + 1 ∧
    (∀ j, j < s.heap.length → liveD t' j = liveD s.heap j ∧ valD t' j = valD s.heap j ∧
      levelOf t' j = levelOf s.heap j ∧ nextLen t' j = nextLen s.heap j) ∧
    (liveD t' s.heap.length = true ∧ valD t' s.heap.length = EV.fin v ∧
      levelOf t' s.heap.length = k ∧ nextLen t' s.heap.length = k + 1) ∧
    (∀ j M, j < s.heap.length → M < L → nxt t' j M = nxt s.heap j M) ∧
    (∀ M, nxt t' s.heap.length M = if L ≤ M ∧ M ≤ k then some (succAt s v M) else none) ∧
    (∀ j M, j < s.heap.length → L ≤ M →
      nxt t' j M = if j = posAt s v M ∧ M ≤ k then some s.heap.length else nxt s.heap j M) ∧
    (posAt s v L = headId ∨ (posAt s v L ∈ chain0 s.heap ∧ L ≤ levelOf s.heap (posAt s v L) ∧
      evLess (valD s.heap (posAt s v L)) (EV.fin v) = true)) := by
  have hL6 : L < maxLevels + 1 := by omega
  obtain ⟨hlen, hold, hnew, hlow, hnidnxt, hhigh, hcurr⟩ := hinv
  have hscan := scan_lands hs hL ⟨hlen, hold, hnew, hlow, hnidnxt, hhigh, hcurr⟩
  obtain ⟨hposlen, hposlive, hposlev, hposnext, hposnt⟩ := posAt_facts hs (v := v) hL6
  have hposnid : posAt s v L ≠ s.heap.length := by omega
  have hlastgoal : posAt s v L = headId ∨ (posAt s v L ∈ chain0 s.heap ∧
      L ≤ levelOf s.heap (posAt s v L) ∧
      evLess (valD s.heap (posAt s v L)) (EV.fin v) = true) := by
    rcases posAt_cases s v L with h | h
    · exact Or.inl h
    · obtain ⟨hmem, hless⟩ := twAt_mem h
      exact Or.inr ⟨(hs.chainL_sub hL6 hmem).1, hposlev, hless⟩
  by_cases hLk : L ≤ k
  · have hchain : chainAt t L = some ((chainAt s.heap L).getD []) := by
      refine chainAt_agree hs hL6 (by rw [hlen]; have := hs.len_bound; omega) ?_
      intro x hx
      exact ⟨(hold x hx).1, hlow x L hx le_rfl⟩
    have hsucc := succAt_nxt hs (v := v) hL6 hchain
    rw [if_pos hLk] at ht'
    have ht'2 : t' = hsetNext (hsetNext t s.heap.length L (some (succAt s v L)))
        (posAt s v L) L (some s.heap.length) := by
      rw [ht']
      unfold spliceAt
      rw [hsucc]
    have hlen' : t'.length = s.heap.length + 1 := by
      rw [ht'2, length_hsetNext, length_hsetNext, hlen]
    have hattrs : ∀ j, liveD t' j = liveD t j ∧ valD t' j = valD t j ∧
        levelOf t' j = levelOf t j ∧ nextLen t' j = nextLen t j := by
      intro j
      rw [ht'2]
      exact ⟨by rw [liveD_hsetNext, liveD_hsetNext],
        by rw [valD_hsetNext, valD_hsetNext],
        by rw [levelOf_hsetNext, levelOf_hsetNext],
        by rw [nextLen_hsetNext, nextLen_hsetNext]⟩
    have hnxt_pos : nxt t' (posAt s v L) L = some s.heap.length := by
      rw [ht'2]
      refine nxt_hsetNext_self ?_ _
      rw [nextLen_hsetNext]
      have : nextLen t (posAt s v L) = nextLen s.heap (posAt s v L) :=
        (hold _ hposlen).2.2.2
      omega
    have hnxt_nid_L : nxt t' s.heap.length L = some (succAt s v L) := by
      rw [ht'2, nxt_hsetNext_ne (by omega)]
      refine nxt_hsetNext_self ?_ _
      rw [hnew.2.2.2]
      omega
    have hnxt_other : ∀ j M, j ≠ posAt s v L → j ≠ s.heap.length →
        nxt t' j M = nxt t j M := by
      intro j M h1 h2
      rw [ht'2, nxt_hsetNext_ne h1, nxt_hsetNext_ne h2]
    have hnxt_neL : ∀ j M, M ≠ L → j ≠ s.heap.length → nxt t' j M = nxt t j M := by
      intro j M h1 h2
      rw [ht'2, nxt_hsetNext_neL h1, nxt_hsetNext_ne h2]
    have hnxt_nid_neL : ∀ M, M ≠ L → nxt t' s.heap.length M = nxt t s.heap.length M := by
      intro M h1
      rw [ht'2, nxt_hsetNext_ne (Ne.symm hposnid), nxt_hsetNext_neL h1]
    refine ⟨hscan, hlen', ?_, ?_, ?_, ?_, ?_, hlastgoal⟩
    · intro j hj
      obtain ⟨h1, h2, h3, h4⟩ := hattrs j
      obtain ⟨g1, g2, g3, g4⟩ := hold j hj
      exact ⟨h1.trans g1, h2.trans g2, h3.trans g3, h4.trans g4⟩
    · obtain ⟨h1, h2, h3, h4⟩ := hattrs s.heap.length
      exact ⟨h1.trans hnew.1, h2.trans hnew.2.1, h3.trans hnew.2.2.1, h4.trans hnew.2.2.2⟩
    · intro j M hj hM
      by_cases hjp : j = posAt s v L
      · subst hjp
        rw [hnxt_neL _ _ (by omega) (by omega)]
        exact hlow _ _ hj (by omega)
      · rw [hnxt_other _ _ hjp (by omega)]
        exact hlow _ _ hj (by omega)
    · intro M
      by_cases hML : M = L
      · subst hML
        rw [hnxt_nid_L, if_pos ⟨le_rfl, hLk⟩]
      · rw [hnxt_nid_neL _ hML, hnidnxt M]
        by_cases hc1 : L < M ∧ M ≤ k
        · rw [if_pos hc1, if_pos ⟨by omega, hc1.2⟩]
        · rw [if_neg hc1, if_neg (by omega)]
    · intro j M hj hM
      by_cases hML : M = L
      · subst hML
        by_cases hjp : j = posAt s v M
        · subst hjp
          rw [hnxt_pos, if_pos ⟨rfl, hLk⟩]
        · rw [hnxt_other _ _ hjp (by omega), hlow _ _ hj le_rfl, if_neg (by tauto)]
      · have hLM : L < M := by omega
        by_cases hjp : j = posAt s v L
        · subst hjp
          rw [hnxt_neL _ _ hML (by omega)]
          exact hhigh _ _ hj hLM
        · rw [hnxt_other _ _ hjp (by omega)]
          exact hhigh _ _ hj hLM
  · rw [if_neg hLk] at ht'
    subst ht'
    refine ⟨hscan, hlen, hold, hnew, ?_, ?_, ?_, hlastgoal⟩
    · intro j M hj hM
      exact hlow _ _ hj (by omega)
    · intro M
      rw [hnidnxt M]
      by_cases hc1 : L < M ∧ M ≤ k
      · rw [if_pos hc1, if_pos ⟨by omega, hc1.2⟩]
      · rw [if_neg hc1, if_neg (by omega)]
    · intro j M hj hM
      rcases Nat.lt_or_ge L M with hLM | hML
      · exact hhigh _ _ hj hLM
      · have hMLeq : M = L := by omega
        subst hMLeq
        rw [hlow _ _ hj le_rfl, if_neg (by omega)]

/-- The whole insertion descent establishes `LoopOut`. -/
theorem insertLoop_go {s : SL} (hs : Inv s) {v : Int} {k : Nat} (hk : k ≤ maxLevels) :
    ∀ L, L ≤ maxLevels → ∀ t curr, LoopInv s v k L t curr →
      LoopOut s v k (insertLoop (EV.fin v) s.heap.length k L t curr).1
        (insertLoop (EV.fin v) s.heap.length k L t curr).2 := by
  intro L
  induction L with
  | zero =>
    intro _ t curr hinv
    obtain ⟨hscan, hlen', hold', hnew', _, hnid', hother', _⟩ :=
      insert_step hs hk (by omega) hinv rfl
    have hloop : insertLoop (EV.fin v) s.heap.length k 0 t curr
        = (if 0 ≤ k then spliceAt t s.heap.length 0 (posAt s v 0) else t, posAt s v 0) := by
      simp only [insertLoop]
      rw [show scanLess t (EV.fin v) 0 t.length curr = posAt s v 0 from hscan]
    rw [hloop]
    refine ⟨hlen', hold', hnew', ?_, ?_, rfl⟩
    · intro M
      rw [hnid' M]
      by_cases hc : M ≤ k
      · rw [if_pos ⟨by omega, hc⟩, if_pos hc]
      · rw [if_neg (by omega), if_neg hc]
    · intro j M hj
      exact hother' j M hj (by omega)
  | succ M ih =>
    intro hL t curr hinv
    obtain ⟨hscan, hlen', hold', hnew', hlow', hnid', hother', hcurr'⟩ :=
      insert_step hs hk hL hinv rfl
    have hloop : insertLoop (EV.fin v) s.heap.length k (M + 1) t curr
        = insertLoop (EV.fin v) s.heap.length k M
            (if M + 1 ≤ k then spliceAt t s.heap.length (M + 1) (posAt s v (M + 1)) else t)
            (posAt s v (M + 1)) := by
      conv_lhs => rw [insertLoop]
      rw [show scanLess t (EV.fin v) (M + 1) t.length curr = posAt s v (M + 1) from hscan]
    rw [hloop]
    refine ih (by omega) _ _ ⟨hlen', hold', hnew', ?_, ?_, ?_, hcurr'⟩
    · intro j M' hj hM'
      exact hlow' j M' hj (by omega)
    · intro M'
      rw [hnid' M']
      by_cases hc : M + 1 ≤ M' ∧ M' ≤ k
      · rw [if_pos hc, if_pos ⟨by omega, hc.2⟩]
      · rw [if_neg hc, if_neg (by omega)]
    · intro j M' hj hM'
      exact hother' j M' hj (by omega)

/-- Decomposition of the level-`L` chain of the pre-insert state around
the splice point. -/
theorem chain_decomp {s : SL} (hs : Inv s) (v : Int) {L : Nat} (hL : L < maxLevels + 1) :
    ∃ q, headId :: twAt s v L = q ++ [posAt s v L] ∧
      Seg s.heap L headId q (posAt s v L) ∧
      Seg s.heap L (succAt s v L) (dwAt s v L) tailId := by
  obtain ⟨q, hq⟩ := cons_eq_append_getLastD (twAt s v L) headId
  have hfull : headId :: (chainAt s.heap L).getD [] = q ++ posAt s v L :: dwAt s v L := by
    have hsplit : (chainAt s.heap L).getD [] = twAt s v L ++ dwAt s v L :=
      (List.takeWhile_append_dropWhile _ _).symm
    rw [hsplit]
    have h2 : headId :: (twAt s v L ++ dwAt s v L) = (headId :: twAt s v L) ++ dwAt s v L := by
      simp
    rw [h2, hq]
    simp [posAt]
  have hchain : chainAt s.heap L = some ((chainAt s.heap L).getD []) := by
    rw [hs.chainAt_eq hL]; rfl
  obtain ⟨hseg, _⟩ := chainAt_sound hchain
  rw [hfull] at hseg
  obtain ⟨j, hseg1, hseg2⟩ := Seg.split hseg
  cases hseg2 with
  | cons hne hl hn hseg3 =>
    refine ⟨q, by rw [hq, posAt], hseg1, ?_⟩
    cases hdw : dwAt s v L with
    | nil =>
      rw [hdw] at hseg3
      cases hseg3 with
      | nil =>
        have : succAt s v L = tailId := by simp [succAt, hdw]
        rw [this]
        exact Seg.nil _
    | cons d dd =>
      rw [hdw] at hseg3
      have : succAt s v L = (dwAt s v L).headD tailId := rfl
      rw [this, hdw]
      cases hseg3 with
      | cons h1 h2 h3 h4 => exact Seg.cons h1 h2 h3 h4

set_option maxHeartbeats 1600000 in
/-- The full effect of a hint-free `insert` on an invariant state. -/
theorem insert_effect (s : SL) (hs : Inv s) (v : Int) (k : Nat) (hk : k ≤ maxLevels) :
    (insert s v k none).2 = s.heap.length ∧
    (insert s v k none).1.size = s.size + 1 ∧
    (insert s v k none).1.heap.length = s.heap.length + 1 ∧
    (∀ j, j < s.heap.length →
      liveD (insert s v k none).1.heap j = liveD s.heap j ∧
      valD (insert s v k none).1.heap j = valD s.heap j ∧
      levelOf (insert s v k none).1.heap j = levelOf s.heap j ∧
      nextLen (insert s v k none).1.heap j = nextLen s.heap j) ∧
    (liveD (insert s v k none).1.heap s.heap.length = true ∧
      valD (insert s v k none).1.heap s.heap.length = EV.fin v ∧
      levelOf (insert s v k none).1.heap s.heap.length = k ∧
      nextLen (insert s v k none).1.heap s.heap.length = k + 1) ∧
    (∀ M, M < maxLevels + 1 → nxt (insert s v k none).1.heap tailId M = none) ∧
    (∀ L, L < maxLevels + 1 → chainAt (insert s v k none).1.heap L =
      some (if L ≤ k then twAt s v L ++ s.heap.length :: dwAt s v L
            else (chainAt s.heap L).getD [])) := by
  have hheadlen : headId < s.heap.length := lt_length_of_liveD hs.headLive
  have hstart : levelOf (s.heap ++ [some (mkNode (EV.fin v) k)]) headId = maxLevels := by
    rw [levelOf_alloc_old hheadlen, hs.headLevel]
  have hinv0 : LoopInv s v k maxLevels (s.heap ++ [some (mkNode (EV.fin v) k)]) headId := by
    refine ⟨by simp, ?_, ?_, ?_, ?_, ?_, Or.inl rfl⟩
    · intro j hj
      exact ⟨liveD_alloc_old hj _, valD_alloc_old hj _, levelOf_alloc_old hj _,
        nextLen_alloc_old hj _⟩
    · exact ⟨liveD_alloc_new _ _, valD_alloc_new _ _ _, levelOf_alloc_new _ _ _,
        nextLen_alloc_new _ _ _⟩
    · intro j M hj _
      exact nxt_alloc_old hj _ _
    · intro M
      rw [nxt_alloc_new]
      rw [if_neg (by omega)]
    · intro j M hj hM
      rw [if_neg (by omega)]
      exact nxt_alloc_old hj _ _
  have hout := insertLoop_go hs hk maxLevels le_rfl _ _ hinv0
  obtain ⟨holen, hoold, honew, honid, hoother, hocurr⟩ := hout
  set tF := (insertLoop (EV.fin v) s.heap.length k maxLevels
    (s.heap ++ [some (mkNode (EV.fin v) k)]) headId).1 with htF
  set cF := (insertLoop (EV.fin v) s.heap.length k maxLevels
    (s.heap ++ [some (mkNode (EV.fin v) k)]) headId).2 with hcF
  have hnid0 : nxt tF s.heap.length 0 = some (succAt s v 0) := by
    rw [honid 0, if_pos (by omega)]
  have hins : insert s v k none =
      ({ heap := hsetPrev (hsetPrev tF s.heap.length (some cF)) (succAt s v 0)
          (some s.heap.length), size := s.size + 1 }, s.heap.length) := by
    unfold insert
    simp only [hstart]
    rw [← htF, ← hcF, hnid0]
  rw [hins]
  have hfr : ∀ j, liveD (hsetPrev (hsetPrev tF s.heap.length (some cF)) (succAt s v 0)
      (some s.heap.length)) j = liveD tF j ∧
      valD (hsetPrev (hsetPrev tF s.heap.length (some cF)) (succAt s v 0)
        (some s.heap.length)) j = valD tF j ∧
      levelOf (hsetPrev (hsetPrev tF s.heap.length (some cF)) (succAt s v 0)
        (some s.heap.length)) j = levelOf tF j ∧
      nextLen (hsetPrev (hsetPrev tF s.heap.length (some cF)) (succAt s v 0)
        (some s.heap.length)) j = nextLen tF j := by
    intro j
    exact ⟨by rw [liveD_hsetPrev, liveD_hsetPrev],
      by rw [valD_hsetPrev, valD_hsetPrev],
      by rw [levelOf_hsetPrev, levelOf_hsetPrev],
      by rw [nextLen_hsetPrev, nextLen_hsetPrev]⟩
  have hfrn : ∀ j M, nxt (hsetPrev (hsetPrev tF s.heap.length (some cF)) (succAt s v 0)
      (some s.heap.length)) j M = nxt tF j M := by
    intro j M
    rw [nxt_hsetPrev, nxt_hsetPrev]
  have hfrl : (hsetPrev (hsetPrev tF s.heap.length (some cF)) (succAt s v 0)
      (some s.heap.length)).length = s.heap.length + 1 := by
    rw [length_hsetPrev, length_hsetPrev, holen]
  have hlenb := hs.len_bound
  refine ⟨rfl, rfl, hfrl, ?_, ?_, ?_, ?_⟩
  · intro j hj
    obtain ⟨h1, h2, h3, h4⟩ := hfr j
    obtain ⟨g1, g2, g3, g4⟩ := hoold j hj
    exact ⟨h1.trans g1, h2.trans g2, h3.trans g3, h4.trans g4⟩
  · obtain ⟨h1, h2, h3, h4⟩ := hfr s.heap.length
    exact ⟨h1.trans honew.1, h2.trans honew.2.1, h3.trans honew.2.2.1,
      h4.trans honew.2.2.2⟩
  · intro M hM
    have htl : tailId < s.heap.length := lt_length_of_liveD hs.tailLive
    rw [hfrn, hoother tailId M htl, if_neg ?_]
    · exact hs.tailNext M hM
    · intro hbad
      exact (posAt_facts hs (v := v) hM).2.2.2.2 hbad.1.symm
  · intro L hL
    obtain ⟨q, hq, hseg1, hseg3⟩ := chain_decomp hs v hL
    have hq_sub : ∀ x ∈ q, x ∈ headId :: twAt s v L := by
      intro x hx
      rw [hq]
      exact List.mem_append_left _ hx
    have htw_len : ∀ x ∈ headId :: twAt s v L, x < s.heap.length ∧
        liveD s.heap x = true := by
      intro x hx
      rcases List.mem_cons.mp hx with rfl | hmem
      · exact ⟨hheadlen, hs.headLive⟩
      · obtain ⟨hmem2, _⟩ := twAt_mem hmem
        have := (hs.chainL_sub hL hmem2).1
        exact ⟨hs.chain_lt_length this, hs.chain_live this⟩
    have hdw_facts : ∀ x ∈ dwAt s v L, x < s.heap.length ∧ liveD s.heap x = true := by
      intro x hx
      have hmem2 : x ∈ (chainAt s.heap L).getD [] := (List.dropWhile_sublist _).subset hx
      have := (hs.chainL_sub hL hmem2).1
      exact ⟨hs.chain_lt_length this, hs.chain_live this⟩
    have hnodupL := hs.chainL_nodup hL
    have hcLsplit : headId :: (chainAt s.heap L).getD []
        = (headId :: twAt s v L) ++ dwAt s v L := by
      have : (chainAt s.heap L).getD [] = twAt s v L ++ dwAt s v L :=
        (List.takeWhile_append_dropWhile _ _).symm
      rw [this]
      simp
    have hdisj : ∀ x ∈ dwAt s v L, x ∉ headId :: twAt s v L := by
      intro x hx hmem
      rw [hcLsplit] at hnodupL
      exact List.disjoint_of_nodup_append hnodupL hmem hx
    have hposq : posAt s v L ∉ q := by
      intro hmem
      have hnd2 : (q ++ [posAt s v L]).Nodup := by
        rw [← hq]
        rw [hcLsplit] at hnodupL
        exact (List.sublist_append_left _ _).nodup hnodupL
      exact List.disjoint_of_nodup_append hnd2 hmem (by simp)
    by_cases hLk : L ≤ k
    · rw [if_pos hLk]
      have hP1 : Seg (hsetPrev (hsetPrev tF s.heap.length (some cF)) (succAt s v 0)
          (some s.heap.length)) L headId q (posAt s v L) := by
        refine hseg1.congr ?_
        intro x hx
        obtain ⟨hxl, hxlive⟩ := htw_len x (hq_sub x hx)
        refine ⟨((hfr x).1).trans ((hoold x hxl).1.trans hxlive), ?_⟩
        rw [hfrn, hoother x L hxl, if_neg ?_]
        intro hbad
        exact hposq (hbad.1 ▸ hx)
      have hposfacts := posAt_facts hs (v := v) hL
      have hnxtpos : nxt (hsetPrev (hsetPrev tF s.heap.length (some cF)) (succAt s v 0)
          (some s.heap.length)) (posAt s v L) L = some s.heap.length := by
        rw [hfrn, hoother _ L hposfacts.1, if_pos ⟨rfl, hLk⟩]
      have hnxtnid : nxt (hsetPrev (hsetPrev tF s.heap.length (some cF)) (succAt s v 0)
          (some s.heap.length)) s.heap.length L = some (succAt s v L) := by
        rw [hfrn, honid L, if_pos hLk]
      have hP4 : Seg (hsetPrev (hsetPrev tF s.heap.length (some cF)) (succAt s v 0)
          (some s.heap.length)) L (succAt s v L) (dwAt s v L) tailId := by
        refine hseg3.congr ?_
        intro x hx
        obtain ⟨hxl, hxlive⟩ := hdw_facts x hx
        refine ⟨((hfr x).1).trans ((hoold x hxl).1.trans hxlive), ?_⟩
        rw [hfrn, hoother x L hxl, if_neg ?_]
        intro hbad
        exact hdisj x hx (hbad.1 ▸ List.getLastD_mem_cons _ _)
      have hseg_new : Seg (hsetPrev (hsetPrev tF s.heap.length (some cF)) (succAt s v 0)
          (some s.heap.length)) L headId
          ((q ++ [posAt s v L, s.heap.length]) ++ dwAt s v L) tailId := by
        refine (hP1.append ?_).append hP4
        refine Seg.cons hposfacts.2.2.2.2 ?_ hnxtpos ?_
        · rw [(hfr _).1, (hoold _ hposfacts.1).1]
          exact hposfacts.2.1
        · refine Seg.cons (by simp only [tailId]; omega) ?_ hnxtnid (Seg.nil _)
          rw [(hfr _).1]
          exact honew.1
      have hlist : (q ++ [posAt s v L, s.heap.length]) ++ dwAt s v L
          = headId :: (twAt s v L ++ s.heap.length :: dwAt s v L) := by
        have h1 : (q ++ [posAt s v L, s.heap.length]) ++ dwAt s v L
            = (q ++ [posAt s v L]) ++ s.heap.length :: dwAt s v L := by simp
        rw [h1, ← hq]
        simp
      rw [hlist] at hseg_new
      refine chainAt_complete hseg_new ?_
      have h1 : (twAt s v L).length + (dwAt s v L).length
          = ((chainAt s.heap L).getD []).length := by
        conv_rhs => rw [← List.takeWhile_append_dropWhile
          (fun j => evLess (valD s.heap j) (EV.fin v)) ((chainAt s.heap L).getD [])]
        rw [List.length_append]
        simp [twAt, dwAt]
      have h2 := hs.chainL_len hL
      simp
      omega
    · rw [if_neg hLk]
      refine chainAt_agree hs hL (by rw [hfrl]; omega) ?_
      intro x hxl
      refine ⟨((hfr x).1).trans (hoold x hxl).1, ?_⟩
      rw [hfrn, hoother x L hxl, if_neg (by tauto)]

/-- On the sorted chain, the strict-less prefix is a filter. -/
theorem twAt_eq_filter {s : SL} (hs : Inv s) {v : Int} {L : Nat} (hL : L < maxLevels + 1) :
    twAt s v L = ((chainAt s.heap L).getD []).filter
      (fun j => evLess (valD s.heap j) (EV.fin v)) := by
  unfold twAt
  exact takeWhile_eq_filter_sorted (hs.chainL_sorted hL)
    (fun a b hab hb => less_of_isLE_of_less hab hb)

theorem dwAt_eq_filter {s : SL} (hs : Inv s) {v : Int} {L : Nat} (hL : L < maxLevels + 1) :
    dwAt s v L = ((chainAt s.heap L).getD []).filter
      (fun j => !evLess (valD s.heap j) (EV.fin v)) := by
  unfold dwAt
  exact dropWhile_eq_filter_sorted (hs.chainL_sorted hL)
    (fun a b hab hb => less_of_isLE_of_less hab hb)

/-- The level-`L` strict-less prefix is the level filter of the bottom
strict-less prefix. -/
theorem twAt_filter_levels {s : SL} (hs : Inv s) {v : Int} {L : Nat} (hL : L < maxLevels + 1) :
    twAt s v L = (twAt s v 0).filter (fun i => decide (L ≤ levelOf s.heap i)) := by
  rw [twAt_eq_filter hs hL, twAt_eq_filter hs (by omega), hs.chainAt_eq hL,
    hs.chain0_eq]
  show ((chain0 s.heap).filter _).filter _ = _
  rw [List.filter_filter, List.filter_filter]
  refine List.filter_congr ?_
  intro x _
  exact Bool.and_comm _ _

theorem dwAt_filter_levels {s : SL} (hs : Inv s) {v : Int} {L : Nat} (hL : L < maxLevels + 1) :
    dwAt s v L = (dwAt s v 0).filter (fun i => decide (L ≤ levelOf s.heap i)) := by
  rw [dwAt_eq_filter hs hL, dwAt_eq_filter hs (by omega), hs.chainAt_eq hL,
    hs.chain0_eq]
  show ((chain0 s.heap).filter _).filter _ = _
  rw [List.filter_filter, List.filter_filter]
  refine List.filter_congr ?_
  intro x _
  exact Bool.and_comm _ _

/-- The bottom chain splits at the insertion point. -/
theorem chain0_split (s : SL) (v : Int) :
    chain0 s.heap = twAt s v 0 ++ dwAt s v 0 := by
  unfold chain0 twAt dwAt
  exact (List.takeWhile_append_dropWhile _ _).symm

/-- Members of `dwAt` are not strictly less than the inserted value. -/
theorem dwAt_mem_not_less {s : SL} (hs : Inv s) {v : Int} {L : Nat} (hL : L < maxLevels + 1)
    {x : Nat} (hx : x ∈ dwAt s v L) : evLess (valD s.heap x) (EV.fin v) = false := by
  rw [dwAt_eq_filter hs hL] at hx
  have := List.of_mem_filter hx
  simpa using this

/-- Hint-free insertion preserves the structural invariant. -/
theorem insert_inv (s : SL) (hs : Inv s) (v : Int) (k : Nat) (hk : k ≤ maxLevels) :
    Inv (insert s v k none).1 := by
  obtain ⟨hnid, hsize, hlen, hold, hnew, htailn, hchains⟩ := insert_effect s hs v k hk
  have hheadlen : headId < s.heap.length := lt_length_of_liveD hs.headLive
  have htaillen : tailId < s.heap.length := lt_length_of_liveD hs.tailLive
  have hc0' : chain0 (insert s v k none).1.heap
      = twAt s v 0 ++ s.heap.length :: dwAt s v 0 := by
    unfold chain0
    rw [hchains 0 (by omega), if_pos (by omega)]
    rfl
  have htw_old : ∀ x ∈ twAt s v 0, x ∈ chain0 s.heap := by
    intro x hx
    have := (twAt_mem hx).1
    rw [hs.chain0_eq] at this
    exact this
  have hdw_old : ∀ x ∈ dwAt s v 0, x ∈ chain0 s.heap := by
    intro x hx
    have : x ∈ (chainAt s.heap 0).getD [] := (List.dropWhile_sublist _).subset hx
    rw [hs.chain0_eq] at this
    exact this
  have hmem_old : ∀ x ∈ chain0 (insert s v k none).1.heap,
      x = s.heap.length ∨ x ∈ chain0 s.heap := by
    intro x hx
    rw [hc0'] at hx
    rcases List.mem_append.mp hx with h | h
    · exact Or.inr (htw_old x h)
    · rcases List.mem_cons.mp h with h | h
      · exact Or.inl h
      · exact Or.inr (hdw_old x h)
  have hold_lt : ∀ x ∈ chain0 s.heap, x < s.heap.length := fun x hx =>
    hs.chain_lt_length hx
  have hval' : ∀ x ∈ chain0 s.heap, valD (insert s v k none).1.heap x = valD s.heap x :=
    fun x hx => (hold x (hold_lt x hx)).2.1
  have hlev' : ∀ x ∈ chain0 s.heap,
      levelOf (insert s v k none).1.heap x = levelOf s.heap x :=
    fun x hx => (hold x (hold_lt x hx)).2.2.1
  have hnd0 := hs.nodup
  have hsplit0 := chain0_split s v
  have hndsplit : (twAt s v 0).Nodup ∧ (dwAt s v 0).Nodup ∧
      (twAt s v 0).Disjoint (dwAt s v 0) := by
    rw [hsplit0] at hnd0
    exact List.nodup_append.mp hnd0
  refine ⟨?_, ?_, ?_, ?_, ?_, ?_, ?_, ?_, ?_, ?_, ?_, ?_, ?_, ?_, ?_, ?_, ?_⟩
  · rw [(hold headId hheadlen).1]; exact hs.headLive
  · rw [(hold headId hheadlen).2.1]; exact hs.headVal
  · rw [(hold headId hheadlen).2.2.1]; exact hs.headLevel
  · rw [(hold headId hheadlen).2.2.2]; exact hs.headLen
  · rw [(hold tailId htaillen).1]; exact hs.tailLive
  · rw [(hold tailId htaillen).2.1]; exact hs.tailVal
  · rw [(hold tailId htaillen).2.2.1]; exact hs.tailLevel
  · rw [(hold tailId htaillen).2.2.2]; exact hs.tailLen
  · exact htailn
  · intro L hL
    rw [hchains L hL]
    rfl
  · intro L hL
    rw [hchains L hL, hc0']
    have hfc : ∀ l : List Nat, (∀ x ∈ l, x ∈ chain0 s.heap) →
        l.filter (fun i => decide (L ≤ levelOf (insert s v k none).1.heap i))
          = l.filter (fun i => decide (L ≤ levelOf s.heap i)) := by
      intro l hl
      refine List.filter_congr ?_
      intro x hx
      rw [hlev' x (hl x hx)]
    rw [List.filter_append, List.filter_cons]
    rw [hfc _ htw_old, hfc _ hdw_old]
    rw [hnew.2.2.1]
    by_cases hLk : L ≤ k
    · rw [if_pos hLk, if_pos (by simpa using hLk)]
      rw [← twAt_filter_levels hs hL, ← dwAt_filter_levels hs hL]
      simp
    · rw [if_neg hLk, if_neg (by simpa using hLk)]
      rw [← twAt_filter_levels hs hL, ← dwAt_filter_levels hs hL]
      simp
      unfold twAt dwAt
      exact (List.takeWhile_append_dropWhile _ _).symm
  · rw [hc0']
    have hpw0 := hs.sorted
    rw [hsplit0] at hpw0
    obtain ⟨hpwtw, hpwdw, hcross⟩ := List.pairwise_append.mp hpw0
    rw [List.pairwise_append]
    refine ⟨?_, ?_, ?_⟩
    · refine hpwtw.imp_of_mem ?_
      intro a b ha hb hab
      rw [hval' a (htw_old a ha), hval' b (htw_old b hb)]
      exact hab
    · rw [List.pairwise_cons]
      constructor
      · intro y hy
        rw [hnew.2.1, hval' y (hdw_old y hy)]
        have := dwAt_mem_not_less hs (by omega) hy
        simp [is_less_or_equal, this]
      · refine hpwdw.imp_of_mem ?_
        intro a b ha hb hab
        rw [hval' a (hdw_old a ha), hval' b (hdw_old b hb)]
        exact hab
    · intro a ha b hb
      rcases List.mem_cons.mp hb with rfl | hb2
      · rw [hval' a (htw_old a ha), hnew.2.1]
        exact isLE_of_less (twAt_mem ha).2
      · rw [hval' a (htw_old a ha), hval' b (hdw_old b hb2)]
        exact hcross a ha b hb2
  · rw [hc0', List.nodup_append, List.nodup_cons]
    refine ⟨hndsplit.1, ⟨?_, hndsplit.2.1⟩, ?_⟩
    · intro hmem
      exact absurd (hold_lt _ (hdw_old _ hmem)) (by omega)
    · rw [List.disjoint_left]
      intro a ha hmem
      rcases List.mem_cons.mp hmem with rfl | h2
      · exact absurd (hold_lt _ (htw_old _ ha)) (by omega)
      · exact hndsplit.2.2 ha h2
  · intro i hi
    rcases hmem_old i hi with rfl | hmem
    · refine ⟨?_, ?_, ?_, ?_, ?_⟩
      · have := hs.len_bound
        simp only [headId]
        omega
      · have := hs.len_bound
        simp only [tailId]
        omega
      · rw [hnew.2.1]; rfl
      · rw [hnew.2.2.1]; exact hk
      · rw [hnew.2.2.2, hnew.2.2.1]
    · obtain ⟨h1, h2, h3, h4, h5⟩ := hs.mem_ok i hmem
      have hilt := hold_lt i hmem
      exact ⟨h1, h2, by rw [(hold i hilt).2.1]; exact h3,
        by rw [(hold i hilt).2.2.1]; exact h4,
        by rw [(hold i hilt).2.2.2, (hold i hilt).2.2.1]; exact h5⟩
  · intro i hi hlive
    by_cases hieq : i = s.heap.length
    · subst hieq
      right; right
      rw [hc0']
      simp
    · have hi2 : i < s.heap.length := by omega
      rw [(hold i hi2).1] at hlive
      rcases hs.live_char i hi2 hlive with h | h | h
      · exact Or.inl h
      · exact Or.inr (Or.inl h)
      · right; right
        rw [hc0', chain0_split s v] at *
        rcases List.mem_append.mp h with h2 | h2
        · exact List.mem_append_left _ h2
        · exact List.mem_append_right _ (List.mem_cons_of_mem _ h2)
  · have h1 : (twAt s v 0).length + (dwAt s v 0).length = (chain0 s.heap).length := by
      rw [chain0_split s v, List.length_append]
    have h2 := hs.len_bound
    rw [hc0', hlen]
    simp
    omega
  · have h1 : (twAt s v 0).length + (dwAt s v 0).length = (chain0 s.heap).length := by
      rw [chain0_split s v, List.length_append]
    rw [hc0', hsize, hs.size_eq]
    simp
    omega

theorem is_equal_not_less {a b : EV} (h : is_equal a b = true) :
    evLess a b = false ∧ evLess b a = false := by
  unfold is_equal at h
  constructor
  · cases hx : evLess a b
    · rfl
    · rw [hx] at h; simp at h
  · cases hx : evLess b a
    · rfl
    · rw [hx] at h; simp at h

/-- C4: duplicate inserts are never rejected; each creates a distinct
fresh node, placed immediately before every existing node of value `≥ v`
(hence before all equal-valued nodes) at every level it participates in,
so equal-valued nodes appear in reverse insertion order. -/
theorem C4_insert_duplicates_first (s : SL) (hs : Inv s) (v : Int) (k : Nat)
    (hk : k ≤ maxLevels) : insertPlacedOK s v k := by
  obtain ⟨hnid, hsize, hlen, hold, hnew, htailn, hchains⟩ := insert_effect s hs v k hk
  refine ⟨?_, hsize, ?_, ?_⟩
  · rw [hnid]
    intro hmem
    exact absurd (hs.chain_lt_length hmem) (by omega)
  · rw [hnid]
    exact hchains
  · intro L hL j hj heq
    have hcL : (chainAt s.heap L).getD [] = twAt s v L ++ dwAt s v L := by
      unfold twAt dwAt
      exact (List.takeWhile_append_dropWhile _ _).symm
    rw [hcL] at hj
    rcases List.mem_append.mp hj with h | h
    · have := (twAt_mem h).2
      rw [(is_equal_not_less heq).1] at this
      cases this
    · exact h

set_option maxHeartbeats 4000000 in
/-- C4 witness: a third equal value inserted into `dupPre`. -/
theorem C4_insert_duplicates_first_witness :
    Inv dupPre ∧ 1 ≤ maxLevels ∧ insertPlacedOK dupPre 5 1 :=
  ⟨by decide, by decide, C4_insert_duplicates_first dupPre (by decide) 5 1 (by decide)⟩

theorem randomLevelGo_ge (coins : Nat → Int) :
    ∀ fuel i level, level ≤ randomLevelGo coins i level fuel := by
  intro fuel
  induction fuel with
  | zero => intro i level; exact le_rfl
  | succ f ih =>
    intro i level
    unfold randomLevelGo
    by_cases hc : (level < maxLevels && toss_a_coin (coins i)) = true
    · rw [if_pos hc]
      exact le_trans (by omega) (ih (i + 1) (level + 1))
    · rw [if_neg hc]

theorem randomLevelGo_le (coins : Nat → Int) :
    ∀ fuel i level, level ≤ maxLevels → randomLevelGo coins i level fuel ≤ maxLevels := by
  intro fuel
  induction fuel with
  | zero => intro i level h; exact h
  | succ f ih =>
    intro i level h
    unfold randomLevelGo
    by_cases hc : (level < maxLevels && toss_a_coin (coins i)) = true
    · rw [if_pos hc]
      refine ih (i + 1) (level + 1) ?_
      have := (Bool.and_eq_true _ _).mp hc
      have h2 : level < maxLevels := by simpa using this.1
      omega
    · rw [if_neg hc]
      exact h

theorem random_level_bounds (coins : Nat → Int) :
    1 ≤ random_level coins ∧ random_level coins ≤ maxLevels :=
  ⟨randomLevelGo_ge coins maxLevels 0 1, randomLevelGo_le coins maxLevels 0 1 (by decide)⟩

theorem insertReach_aux : ∀ s : SL, InsertReach s →
    Inv s ∧ ∀ i ∈ chain0 s.heap, 1 ≤ levelOf s.heap i := by
  intro s h
  induction h with
  | base => exact ⟨Inv.init_holds, by decide⟩
  | step s v coins _ ih =>
    obtain ⟨hinv, hlev⟩ := ih
    have hb := random_level_bounds coins
    refine ⟨insert_inv s hinv v _ hb.2, ?_⟩
    obtain ⟨hnid, _, _, hold, hnew, _, hchains⟩ := insert_effect s hinv v _ hb.2
    have hc0' : chain0 (insert s v (random_level coins) none).1.heap
        = twAt s v 0 ++ s.heap.length :: dwAt s v 0 := by
      unfold chain0
      rw [hchains 0 (by omega), if_pos (by omega)]
      rfl
    intro i hi
    rw [hc0'] at hi
    have hmemold : ∀ x, x ∈ chain0 s.heap → 1 ≤ levelOf
        (insert s v (random_level coins) none).1.heap x := by
      intro x hx
      rw [(hold x (hinv.chain_lt_length hx)).2.2.1]
      exact hlev x hx
    rcases List.mem_append.mp hi with h | h
    · refine hmemold i ?_
      have := (twAt_mem h).1
      rw [hinv.chain0_eq] at this
      exact this
    · rcases List.mem_cons.mp h with rfl | h2
      · rw [hnew.2.2.1]
        exact hb.1
      · refine hmemold i ?_
        have : i ∈ (chainAt s.heap 0).getD [] := (List.dropWhile_sublist _).subset h2
        rw [hinv.chain0_eq] at this
        exact this

/-- C9: `random_level` always returns a level in `[1, maxLevels]` — never
0 — and consequently on every state built by hint-free inserts the level-1
chain is exactly the level-0 chain. -/
theorem C9_level_one_chain_complete :
    (∀ coins : Nat → Int, 1 ≤ random_level coins ∧ random_level coins ≤ maxLevels) ∧
    (∀ s : SL, InsertReach s → chainAt s.heap 1 = chainAt s.heap 0) := by
  refine ⟨random_level_bounds, ?_⟩
  intro s h
  obtain ⟨hinv, hlev⟩ := insertReach_aux s h
  rw [hinv.chainAt_eq (L := 1) (by decide), hinv.chain0_eq]
  rw [List.filter_eq_self.mpr ?_]
  intro a ha
  simpa using hlev a ha

set_option maxHeartbeats 4000000 in
/-- C9 witness. -/
theorem C9_level_one_chain_complete_witness :
    (1 ≤ random_level (fun _ => 1) ∧ random_level (fun _ => 1) ≤ maxLevels) ∧
    chainAt dupPre.heap 1 = chainAt dupPre.heap 0 :=
  ⟨C9_level_one_chain_complete.1 (fun _ => 1),
   C9_level_one_chain_complete.2 dupPre
     (InsertReach.step _ 5 (fun _ => 1) (InsertReach.step _ 5 (fun _ => 1) InsertReach.base))⟩

/-! ## Effect of `remove` on a node that is first among its value at
every level it participates in (the only case the source unlinks
correctly; `sl_impl::insert` always produces such a node, which is what
the insert/remove inverse law relies on). -/

/-- The scan-landing lemma, generalized to any heap that agrees with the
invariant state on the live region (used by the `remove` descent, whose
heap has the same length as the state's). -/
theorem scan_lands_gen {s : SL} (hs : Inv s) {v : Int} {L : Nat} {t : Heap} {curr : Nat}
    (hL : L ≤ maxLevels) (hlen : s.heap.length ≤ t.length)
    (hsame : ∀ x, x < s.heap.length →
      liveD t x = liveD s.heap x ∧ valD t x = valD s.heap x ∧ nxt t x L = nxt s.heap x L)
    (hcurr : curr = headId ∨ (curr ∈ chain0 s.heap ∧ L + 1 ≤ levelOf s.heap curr ∧
      evLess (valD s.heap curr) (EV.fin v) = true)) :
    scanLess t (EV.fin v) L t.length curr = posAt s v L := by
  have hL6 : L < maxLevels + 1 := by omega
  have hchain : chainAt t L = some ((chainAt s.heap L).getD []) := by
    refine chainAt_agree hs hL6 (by have := hs.len_bound; omega) ?_
    intro x hx
    exact ⟨(hsame x hx).1, (hsame x hx).2.2⟩
  obtain ⟨hseg, _⟩ := chainAt_sound hchain
  have hcurrmem : curr ∈ headId :: (chainAt s.heap L).getD [] := by
    rcases hcurr with rfl | ⟨hmem, hlev, _⟩
    · simp
    · refine List.mem_cons_of_mem _ ?_
      rw [hs.chainAt_eq hL6]
      exact List.mem_filter.mpr ⟨hmem, by simp; omega⟩
  obtain ⟨pre, rest, hfull, hsegcurr⟩ := seg_from_mem hseg hcurrmem
  have hrestlen : rest.length ≤ t.length := by
    have h1 := congrArg List.length hfull
    have h2 := hs.chainL_len hL6
    have h3 := hs.len_bound
    simp at h1
    omega
  rw [scanLess_eq_dest hsegcurr hrestlen, scanLessDest_takeWhile]
  have hpred : ∀ x ∈ rest,
      (evLess (valD t x) (EV.fin v)) = (evLess (valD s.heap x) (EV.fin v)) := by
    intro x hx
    have hxfull : x ∈ headId :: (chainAt s.heap L).getD [] := by
      rw [hfull]
      exact List.mem_append_right _ (List.mem_cons_of_mem _ hx)
    have hxlen : x < s.heap.length := by
      rcases List.mem_cons.mp hxfull with rfl | hmem
      · exact lt_length_of_liveD hs.headLive
      · exact hs.chain_lt_length (hs.chainL_sub hL6 hmem).1
    rw [(hsame x hxlen).2.1]
  rw [takeWhile_congr_mem hpred]
  have hcurr' : curr = headId ∨ (curr ∈ (chainAt s.heap L).getD [] ∧
      evLess (valD s.heap curr) (EV.fin v) = true) := by
    rcases hcurr with rfl | ⟨hmem, hlev, hless⟩
    · exact Or.inl rfl
    · refine Or.inr ⟨?_, hless⟩
      rw [hs.chainAt_eq hL6]
      exact List.mem_filter.mpr ⟨hmem, by simp; omega⟩
  exact last_takeWhile_suffix (hs.chainL_nodup hL6) hfull (hs.chainL_sorted hL6) hcurr'

/-- The successor at a level above the node's own level differs from the
node (the node does not participate there). -/
theorem succAt_ne_above {u : SL} (hu : Inv u) {w : Int} {nid L : Nat}
    (hL : L < maxLevels + 1) (hmem : nid ∈ chain0 u.heap)
    (habove : levelOf u.heap nid < L) : succAt u w L ≠ nid := by
  unfold succAt
  cases hdw : dwAt u w L with
  | nil =>
    simp only [List.headD]
    intro h
    exact (hu.mem_ok nid hmem).2.1 h.symm
  | cons d dd =>
    simp only [List.headD]
    intro h
    subst h
    have hd : d ∈ dwAt u w L := by rw [hdw]; simp
    have hd2 : d ∈ (chainAt u.heap L).getD [] := (List.dropWhile_sublist _).subset hd
    have := (hu.chainL_sub hL hd2).2
    omega

/-- One level of the remove descent. -/
theorem remove_step {u : SL} (hu : Inv u) {w : Int} {nid L : Nat} {t : Heap} {curr : Nat}
    (hL : L ≤ maxLevels) (hmem : nid ∈ chain0 u.heap)
    (hfirst : ∀ M, M < maxLevels + 1 → M ≤ levelOf u.heap nid →
      dwAt u w M = nid :: (dwAt u w M).tail)
    (hinv : RemInv u w nid L t curr) {t' : Heap}
    (ht' : t' = (if nxt t (posAt u w L) L == some nid
      then hsetNext t (posAt u w L) L (nxt t nid L) else t)) :
    scanLess t (EV.fin w) L t.length curr = posAt u w L ∧
    t'.length = u.heap.length ∧
    (∀ j, liveD t' j = liveD u.heap j ∧ valD t' j = valD u.heap j ∧
      levelOf t' j = levelOf u.heap j ∧ nextLen t' j = nextLen u.heap j) ∧
    (∀ j M, M < L → nxt t' j M = nxt u.heap j M) ∧
    (∀ j M, L ≤ M → nxt t' j M =
      if j = posAt u w M ∧ M ≤ levelOf u.heap nid then nxt u.heap nid M
      else nxt u.heap j M) ∧
    (posAt u w L = headId ∨ (posAt u w L ∈ chain0 u.heap ∧ L ≤ levelOf u.heap (posAt u w L) ∧
      evLess (valD u.heap (posAt u w L)) (EV.fin w) = true)) := by
  have hL6 : L < maxLevels + 1 := by omega
  obtain ⟨hlen, hattr, hlow, hhigh, hcurr⟩ := hinv
  have hscan : scanLess t (EV.fin w) L t.length curr = posAt u w L := by
    refine scan_lands_gen hu hL (by omega) ?_ hcurr
    intro x hx
    exact ⟨(hattr x).1, (hattr x).2.1, hlow x L le_rfl⟩
  obtain ⟨hposlen, hposlive, hposlev, hposnext, hposnt⟩ := posAt_facts hu (v := w) hL6
  have hchainu : chainAt u.heap L = some ((chainAt u.heap L).getD []) := by
    rw [hu.chainAt_eq hL6]; rfl
  have hsucc_u : nxt u.heap (posAt u w L) L = some (succAt u w L) :=
    succAt_nxt hu hL6 hchainu
  have hsucc_t : nxt t (posAt u w L) L = some (succAt u w L) := by
    rw [hlow _ L le_rfl]
    exact hsucc_u
  have hlastgoal : posAt u w L = headId ∨ (posAt u w L ∈ chain0 u.heap ∧
      L ≤ levelOf u.heap (posAt u w L) ∧
      evLess (valD u.heap (posAt u w L)) (EV.fin w) = true) := by
    rcases posAt_cases u w L with h | h
    · exact Or.inl h
    · obtain ⟨hmem2, hless⟩ := twAt_mem h
      exact Or.inr ⟨(hu.chainL_sub hL6 hmem2).1, hposlev, hless⟩
  by_cases hlev : L ≤ levelOf u.heap nid
  · have hsucc_nid : succAt u w L = nid := by
      unfold succAt
      rw [hfirst L hL6 hlev]
      rfl
    have htest : (nxt t (posAt u w L) L == some nid) = true := by
      rw [hsucc_t, hsucc_nid]
      simp
    rw [if_pos htest] at ht'
    refine ⟨hscan, ?_, ?_, ?_, ?_, hlastgoal⟩
    · rw [ht', length_hsetNext, hlen]
    · intro j
      rw [ht']
      exact ⟨by rw [liveD_hsetNext]; exact (hattr j).1,
        by rw [valD_hsetNext]; exact (hattr j).2.1,
        by rw [levelOf_hsetNext]; exact (hattr j).2.2.1,
        by rw [nextLen_hsetNext]; exact (hattr j).2.2.2⟩
    · intro j M hM
      rw [ht']
      by_cases hjp : j = posAt u w L
      · subst hjp
        rw [nxt_hsetNext_neL (by omega)]
        exact hlow _ _ (by omega)
      · rw [nxt_hsetNext_ne hjp]
        exact hlow _ _ (by omega)
    · intro j M hM
      by_cases hML : M = L
      · subst hML
        by_cases hjp : j = posAt u w M
        · subst hjp
          rw [ht']
          rw [nxt_hsetNext_self ?_]
          · rw [if_pos ⟨rfl, hlev⟩, hlow _ _ le_rfl]
          · have := (hattr (posAt u w M)).2.2.2
            omega
        · rw [ht', nxt_hsetNext_ne hjp, hlow _ _ le_rfl, if_neg (by tauto)]
      · have hLM : L < M := by omega
        by_cases hjp : j = posAt u w L
        · subst hjp
          rw [ht', nxt_hsetNext_neL hML]
          exact hhigh _ _ hLM
        · rw [ht', nxt_hsetNext_ne hjp]
          exact hhigh _ _ hLM
  · have htest : (nxt t (posAt u w L) L == some nid) = false := by
      rw [hsucc_t]
      have := succAt_ne_above hu (w := w) hL6 hmem (by omega)
      simp [this]
    rw [if_neg (by simp [htest])] at ht'
    subst ht'
    refine ⟨hscan, hlen, hattr, ?_, ?_, hlastgoal⟩
    · intro j M hM
      exact hlow _ _ (by omega)
    · intro j M hM
      rcases Nat.lt_or_ge L M with hLM | hML
      · exact hhigh _ _ hLM
      · have hMLeq : M = L := by omega
        subst hMLeq
        rw [hlow _ _ le_rfl, if_neg (by omega)]

/-- The whole remove descent establishes `RemOut`. -/
theorem removeLoop_go {u : SL} (hu : Inv u) {w : Int} {nid : Nat}
    (hmem : nid ∈ chain0 u.heap)
    (hfirst : ∀ M, M < maxLevels + 1 → M ≤ levelOf u.heap nid →
      dwAt u w M = nid :: (dwAt u w M).tail) :
    ∀ L, L ≤ maxLevels → ∀ t curr, RemInv u w nid L t curr →
      RemOut u w nid (removeLoop (EV.fin w) nid L t curr) := by
  intro L
  induction L with
  | zero =>
    intro _ t curr hinv
    obtain ⟨hscan, hlen', hattr', hlow', hother', _⟩ :=
      remove_step hu (by omega) hmem hfirst hinv rfl
    have hloop : removeLoop (EV.fin w) nid 0 t curr
        = (if nxt t (posAt u w 0) 0 == some nid
           then hsetNext t (posAt u w 0) 0 (nxt t nid 0) else t) := by
      simp only [removeLoop]
      rw [show scanLess t (EV.fin w) 0 t.length curr = posAt u w 0 from hscan]
    rw [hloop]
    exact ⟨hlen', hattr', fun j M => hother' j M (by omega)⟩
  | succ M ih =>
    intro hL t curr hinv
    obtain ⟨hscan, hlen', hattr', hlow', hother', hcurr'⟩ :=
      remove_step hu hL hmem hfirst hinv rfl
    have hloop : removeLoop (EV.fin w) nid (M + 1) t curr
        = removeLoop (EV.fin w) nid M
            (if nxt t (posAt u w (M + 1)) (M + 1) == some nid
             then hsetNext t (posAt u w (M + 1)) (M + 1) (nxt t nid (M + 1)) else t)
            (posAt u w (M + 1)) := by
      conv_lhs => rw [removeLoop]
      rw [show scanLess t (EV.fin w) (M + 1) t.length curr = posAt u w (M + 1) from hscan]
    rw [hloop]
    refine ih (by omega) _ _ ⟨hlen', hattr', ?_, ?_, ?_⟩
    · intro j M' hM'
      exact hlow' j M' (by omega)
    · intro j M' hM'
      exact hother' j M' (by omega)
    · rcases hcurr' with h | ⟨h1, h2, h3⟩
      · exact Or.inl h
      · exact Or.inr ⟨h1, by omega, h3⟩

set_option maxHeartbeats 1600000 in
/-- The full effect of `remove` on a node that is first among its equals
at every level it participates in. -/
theorem remove_effect (u : SL) (hu : Inv u) (nid : Nat) (w : Int)
    (hw : valD u.heap nid = EV.fin w) (hmem : nid ∈ chain0 u.heap)
    (hfirst : ∀ M, M < maxLevels + 1 → M ≤ levelOf u.heap nid →
      dwAt u w M = nid :: (dwAt u w M).tail) :
    (remove u nid).size = u.size - 1 ∧
    (remove u nid).heap.length = u.heap.length ∧
    (∀ j, j ≠ nid → liveD (remove u nid).heap j = liveD u.heap j ∧
      valD (remove u nid).heap j = valD u.heap j) ∧
    liveD (remove u nid).heap nid = false ∧
    (∀ L, L < maxLevels + 1 → chainAt (remove u nid).heap L =
      some (if L ≤ levelOf u.heap nid then twAt u w L ++ (dwAt u w L).tail
            else (chainAt u.heap L).getD [])) := by
  have hnidlen : nid < u.heap.length := hu.chain_lt_length hmem
  have hnidlive : liveD u.heap nid = true := hu.chain_live hmem
  obtain ⟨hnidnh, hnidnt, _, hnidlev, _⟩ := hu.mem_ok nid hmem
  -- the state after the backward-reference fix
  set h0 : Heap := (match nxt u.heap nid 0 with
    | some m => hsetPrev u.heap m (prevOf u.heap nid)
    | none => u.heap) with hh0
  have h0attr : ∀ j, liveD h0 j = liveD u.heap j ∧ valD h0 j = valD u.heap j ∧
      levelOf h0 j = levelOf u.heap j ∧ nextLen h0 j = nextLen u.heap j := by
    intro j
    rw [hh0]
    cases nxt u.heap nid 0 with
    | none => exact ⟨rfl, rfl, rfl, rfl⟩
    | some m =>
      exact ⟨liveD_hsetPrev _ _ _ _, valD_hsetPrev _ _ _ _,
        levelOf_hsetPrev _ _ _ _, nextLen_hsetPrev _ _ _ _⟩
  have h0nxt : ∀ j M, nxt h0 j M = nxt u.heap j M := by
    intro j M
    rw [hh0]
    cases nxt u.heap nid 0 with
    | none => rfl
    | some m => exact nxt_hsetPrev _ _ _ _ _
  have h0len : h0.length = u.heap.length := by
    rw [hh0]
    cases nxt u.heap nid 0 with
    | none => rfl
    | some m => exact length_hsetPrev _ _ _
  have hinv0 : RemInv u w nid maxLevels h0 headId := by
    refine ⟨h0len, h0attr, fun j M _ => h0nxt j M, ?_, Or.inl rfl⟩
    intro j M hM
    have hnot : ¬(j = posAt u w M ∧ M ≤ levelOf u.heap nid) := by
      intro hb
      have := hb.2
      omega
    rw [if_neg hnot, h0nxt]
  have hout := removeLoop_go hu hmem hfirst maxLevels le_rfl h0 headId hinv0
  obtain ⟨holen, hoattr, honxt⟩ := hout
  set tR := removeLoop (EV.fin w) nid maxLevels h0 headId with htR
  have hrem : remove u nid = { heap := hset tR nid none, size := u.size - 1 } := by
    unfold remove
    rw [hw]
  rw [hrem]
  have hfin_live : ∀ j, j ≠ nid → liveD (hset tR nid none) j = liveD u.heap j := by
    intro j hj
    rw [liveD_free_ne hj]
    exact (hoattr j).1
  have hfin_val : ∀ j, j ≠ nid → valD (hset tR nid none) j = valD u.heap j := by
    intro j hj
    rw [valD_free_ne hj]
    exact (hoattr j).2.1
  have hfin_nxt : ∀ j M, j ≠ nid → nxt (hset tR nid none) j M =
      (if j = posAt u w M ∧ M ≤ levelOf u.heap nid then nxt u.heap nid M
       else nxt u.heap j M) := by
    intro j M hj
    rw [nxt_free_ne hj]
    exact honxt j M
  have hfin_len : (hset tR nid none).length = u.heap.length := by
    rw [length_hset, holen]
  refine ⟨rfl, hfin_len, fun j hj => ⟨hfin_live j hj, hfin_val j hj⟩,
    liveD_free_self _ _, ?_⟩
  intro L hL
  have hposne : posAt u w L ≠ nid := by
    rcases posAt_cases u w L with h | h
    · rw [h]; exact fun hb => hnidnh hb.symm
    · obtain ⟨_, hless⟩ := twAt_mem h
      intro hb
      rw [hb, hw, evLess_irrefl] at hless
      cases hless
  by_cases hlev : L ≤ levelOf u.heap nid
  · rw [if_pos hlev]
    obtain ⟨q, hq, hseg1, hseg3⟩ := chain_decomp hu w hL
    have hsucc_nid : succAt u w L = nid := by
      unfold succAt
      rw [hfirst L hL hlev]
      rfl
    rw [hsucc_nid] at hseg3
    have hdw_cons : dwAt u w L = nid :: (dwAt u w L).tail := hfirst L hL hlev
    -- invert the Seg from nid
    rw [hdw_cons] at hseg3
    cases hseg3 with
    | @cons _ nx _ _ hne2 hl2 hn2 hseg4 =>
      -- pieces of the new heap's path
      have hq_sub : ∀ x ∈ q, x ∈ headId :: twAt u w L := by
        intro x hx
        rw [hq]
        exact List.mem_append_left _ hx
      have htw_facts : ∀ x ∈ headId :: twAt u w L, x < u.heap.length ∧
          liveD u.heap x = true ∧ x ≠ nid := by
        intro x hx
        rcases List.mem_cons.mp hx with rfl | hmem2
        · exact ⟨lt_length_of_liveD hu.headLive, hu.headLive,
            fun hb => hnidnh hb.symm⟩
        · obtain ⟨hm3, hless⟩ := twAt_mem hmem2
          have hc0 := (hu.chainL_sub hL hm3).1
          refine ⟨hu.chain_lt_length hc0, hu.chain_live hc0, ?_⟩
          intro hb
          rw [hb, hw, evLess_irrefl] at hless
          cases hless
      have hnodupL := hu.chainL_nodup hL
      have hcLsplit : headId :: (chainAt u.heap L).getD []
          = (headId :: twAt u w L) ++ dwAt u w L := by
        have : (chainAt u.heap L).getD [] = twAt u w L ++ dwAt u w L := by
          unfold twAt dwAt
          exact (List.takeWhile_append_dropWhile _ _).symm
        rw [this]
        simp
      have hdisj : ∀ x ∈ dwAt u w L, x ∉ headId :: twAt u w L := by
        intro x hx hmem2
        rw [hcLsplit] at hnodupL
        exact List.disjoint_of_nodup_append hnodupL hmem2 hx
      have hdd_sub : ∀ x ∈ (dwAt u w L).tail, x ∈ dwAt u w L := by
        intro x hx
        rw [hdw_cons]
        exact List.mem_cons_of_mem _ hx
      have hdd_facts : ∀ x ∈ (dwAt u w L).tail, x < u.heap.length ∧
          liveD u.heap x = true ∧ x ≠ nid := by
        intro x hx
        have hx2 : x ∈ (chainAt u.heap L).getD [] :=
          (List.dropWhile_sublist _).subset (hdd_sub x hx)
        have hc0 := (hu.chainL_sub hL hx2).1
        refine ⟨hu.chain_lt_length hc0, hu.chain_live hc0, ?_⟩
        intro hb
        have hnd : (dwAt u w L).Nodup := by
          refine (List.dropWhile_sublist _).nodup ?_
          rw [hu.chainAt_eq hL]
          exact hu.nodup.filter _
        rw [hdw_cons, List.nodup_cons] at hnd
        exact hnd.1 (hb ▸ hx)
      have hP1 : Seg (hset tR nid none) L headId q (posAt u w L) := by
        refine hseg1.congr ?_
        intro x hx
        obtain ⟨hxl, hxlive, hxne⟩ := htw_facts x (hq_sub x hx)
        refine ⟨(hfin_live x hxne).trans hxlive, ?_⟩
        rw [hfin_nxt x L hxne, if_neg ?_]
        intro hbad
        have hposq : posAt u w L ∉ q := by
          intro hmemq
          have hnd2 : (q ++ [posAt u w L]).Nodup := by
            rw [← hq]
            rw [hcLsplit] at hnodupL
            exact (List.sublist_append_left _ _).nodup hnodupL
          exact List.disjoint_of_nodup_append hnd2 hmemq (by simp)
        exact hposq (hbad.1 ▸ hx)
      have hP2 : nxt (hset tR nid none) (posAt u w L) L = nxt u.heap nid L := by
        rw [hfin_nxt _ L hposne, if_pos ⟨rfl, hlev⟩]
      have hP4 : Seg (hset tR nid none) L nx (dwAt u w L).tail tailId := by
        refine hseg4.congr ?_
        intro x hx
        obtain ⟨hxl, hxlive, hxne⟩ := hdd_facts x hx
        refine ⟨(hfin_live x hxne).trans hxlive, ?_⟩
        rw [hfin_nxt x L hxne, if_neg ?_]
        intro hbad
        refine hdisj x (hdd_sub x hx) ?_
        rw [hbad.1]
        exact List.getLastD_mem_cons _ _
      have hposfacts := posAt_facts hu (v := w) hL
      have hseg_new : Seg (hset tR nid none) L headId
          (q ++ (posAt u w L :: (dwAt u w L).tail)) tailId := by
        refine hP1.append ?_
        refine Seg.cons hposfacts.2.2.2.2 ?_ (by rw [hP2]; exact hn2) hP4
        rw [hfin_live _ hposne]
        exact hposfacts.2.1
      have hlist : q ++ (posAt u w L :: (dwAt u w L).tail)
          = headId :: (twAt u w L ++ (dwAt u w L).tail) := by
        have h6 : q ++ (posAt u w L :: (dwAt u w L).tail)
            = (q ++ [posAt u w L]) ++ (dwAt u w L).tail := by
          simp
        rw [h6, ← hq]
        simp
      rw [hlist] at hseg_new
      refine chainAt_complete hseg_new ?_
      have h2 := hu.chainL_len hL
      have h3 := hu.len_bound
      have h4 : (twAt u w L).length + (dwAt u w L).length
          = ((chainAt u.heap L).getD []).length := by
        conv_rhs => rw [show (chainAt u.heap L).getD [] = twAt u w L ++ dwAt u w L by
          unfold twAt dwAt
          exact (List.takeWhile_append_dropWhile _ _).symm]
        rw [List.length_append]
      have h5 : (dwAt u w L).tail.length + 1 = (dwAt u w L).length := by
        rw [hdw_cons]
        simp
      rw [hfin_len]
      simp
      omega
  · rw [if_neg hlev]
    have hcL : chainAt u.heap L = some ((chainAt u.heap L).getD []) := by
      rw [hu.chainAt_eq hL]
      rfl
    refine chainAt_congr hcL ?_ ?_
    · have h2 := hu.chainL_len hL
      have h3 := hu.len_bound
      rw [hfin_len]
      omega
    · intro x hx
      have hxne : x ≠ nid := by
        rcases List.mem_cons.mp hx with rfl | hmem2
        · exact fun hb => hnidnh hb.symm
        · intro hb
          have := (hu.chainL_sub hL hmem2).2
          rw [hb] at this
          exact hlev this
      have hxlive : liveD u.heap x = true := by
        rcases List.mem_cons.mp hx with rfl | hmem2
        · exact hu.headLive
        · exact hu.chain_live (hu.chainL_sub hL hmem2).1
      refine ⟨(hfin_live x hxne).trans hxlive, ?_⟩
      rw [hfin_nxt x L hxne, if_neg (fun hb => hlev hb.2)]

/-- C5: on any invariant state, also in the presence of equal-valued
nodes, inserting `v` and immediately removing the returned handle
restores `size` and the bottom-level ordered sequence. -/
theorem C5_insert_remove_inverse (s : SL) (hs : Inv s) (v : Int) (k : Nat)
    (hk : k ≤ maxLevels) : insertRemoveOK s v k := by
  obtain ⟨hnid, hsize, hlen, hold, hnew, htailn, hchains⟩ := insert_effect s hs v k hk
  have hinv1 : Inv (insert s v k none).1 := insert_inv s hs v k hk
  unfold insertRemoveOK
  rw [hnid]
  -- facts about the post-insert state
  have hptw : ∀ M, M < maxLevels + 1 → ∀ x ∈ twAt s v M,
      evLess (valD (insert s v k none).1.heap x) (EV.fin v) = true := by
    intro M hM x hx
    obtain ⟨hxc, hxless⟩ := twAt_mem hx
    have hxlt : x < s.heap.length := hs.chain_lt_length (hs.chainL_sub hM hxc).1
    rw [(hold x hxlt).2.1]
    exact hxless
  have hpnid : evLess (valD (insert s v k none).1.heap s.heap.length) (EV.fin v)
      = false := by
    rw [hnew.2.1]
    exact evLess_irrefl _
  have hchainM : ∀ M, M < maxLevels + 1 → M ≤ k →
      (chainAt (insert s v k none).1.heap M).getD []
        = twAt s v M ++ s.heap.length :: dwAt s v M := by
    intro M hM hMk
    rw [hchains M hM, if_pos hMk]
    rfl
  have hdw1 : ∀ M, M < maxLevels + 1 → M ≤ k →
      dwAt (insert s v k none).1 v M = s.heap.length :: dwAt s v M := by
    intro M hM hMk
    show List.dropWhile _ ((chainAt (insert s v k none).1.heap M).getD [])
      = s.heap.length :: dwAt s v M
    rw [hchainM M hM hMk, dropWhile_append_all (hptw M hM), List.dropWhile_cons,
      if_neg (by simp [hpnid])]
  have htw1 : ∀ M, M < maxLevels + 1 → M ≤ k →
      twAt (insert s v k none).1 v M = twAt s v M := by
    intro M hM hMk
    show List.takeWhile _ ((chainAt (insert s v k none).1.heap M).getD [])
      = twAt s v M
    rw [hchainM M hM hMk, takeWhile_append_all (hptw M hM), List.takeWhile_cons,
      if_neg (by simp [hpnid])]
    simp
  have hmem1 : s.heap.length ∈ chain0 (insert s v k none).1.heap := by
    unfold chain0
    rw [hchains 0 (by omega), if_pos (by omega)]
    simp
  have hlevnid : levelOf (insert s v k none).1.heap s.heap.length = k := hnew.2.2.1
  have hfirst1 : ∀ M, M < maxLevels + 1 →
      M ≤ levelOf (insert s v k none).1.heap s.heap.length →
      dwAt (insert s v k none).1 v M
        = s.heap.length :: (dwAt (insert s v k none).1 v M).tail := by
    intro M hM hMl
    rw [hlevnid] at hMl
    rw [hdw1 M hM hMl]
    rfl
  obtain ⟨hrs, _, _, _, hrchains⟩ :=
    remove_effect (insert s v k none).1 hinv1 s.heap.length v hnew.2.1 hmem1 hfirst1
  constructor
  · rw [hrs, hsize]
    omega
  · rw [hrchains 0 (by omega), if_pos (Nat.zero_le _),
      htw1 0 (by omega) (Nat.zero_le _), hdw1 0 (by omega) (Nat.zero_le _)]
    rw [show (s.heap.length :: dwAt s v 0).tail = dwAt s v 0 from rfl]
    rw [← chain0_split s v, hs.chain0_eq]

set_option maxHeartbeats 4000000 in
/-- C5 witness: insert then remove on a state already holding two
equal-valued nodes. -/
theorem C5_insert_remove_inverse_witness :
    Inv dupPre ∧ 1 ≤ maxLevels ∧ insertRemoveOK dupPre 5 1 :=
  ⟨by decide, by decide, C5_insert_remove_inverse dupPre (by decide) 5 1 (by decide)⟩

/-! ## C7: `remove_all` empties the engine. -/

theorem liveD_congr_hget {h h' : Heap} {i : Nat} (he : hget h' i = hget h i) :
    liveD h' i = liveD h i := by
  simp only [liveD, he]

theorem nxt_congr_hget {h h' : Heap} {i : Nat} (he : hget h' i = hget h i) (M : Nat) :
    nxt h' i M = nxt h i M := by
  simp only [nxt, he]

theorem nextLen_congr_hget {h h' : Heap} {i : Nat} (he : hget h' i = hget h i) :
    nextLen h' i = nextLen h i := by
  simp only [nextLen, he]

/-- The freeing walk along a duplicate-free path to the tail frees exactly
the path members and leaves every other cell untouched. -/
theorem removeAllFree_spec :
    ∀ (l : List Nat) (h : Heap) (start : Nat), Seg h 0 start l tailId → l.Nodup →
      ∀ (fuel : Nat), l.length < fuel →
      (removeAllFree h fuel start).length = h.length ∧
      (∀ j, j ∈ l → liveD (removeAllFree h fuel start) j = false) ∧
      (∀ j, j ∉ l → hget (removeAllFree h fuel start) j = hget h j) := by
  intro l
  induction l with
  | nil =>
    intro h start hseg hnd fuel hfuel
    cases hseg with
    | nil =>
      cases fuel with
      | zero => exact absurd hfuel (by simp)
      | succ f =>
        have hred : removeAllFree h (f + 1) tailId = h := by
          simp [removeAllFree]
        rw [hred]
        exact ⟨rfl, by simp, fun j _ => rfl⟩
  | cons x rest ih =>
    intro h start hseg hnd fuel hfuel
    cases hseg with
    | @cons _ nx _ _ hne hl hn hrest =>
      cases fuel with
      | zero => exact absurd hfuel (Nat.not_lt_zero _)
      | succ f =>
        have hxnot : x ∉ rest := (List.nodup_cons.mp hnd).1
        have hstep : removeAllFree h (f + 1) x = removeAllFree (hset h x none) f nx := by
          simp only [removeAllFree]
          rw [if_neg hne]
          simp only [hn]
        have hseg' : Seg (hset h x none) 0 nx rest tailId := by
          refine hrest.congr ?_
          intro y hy
          have hyx : y ≠ x := fun hb => hxnot (hb ▸ hy)
          exact ⟨by rw [liveD_free_ne hyx]; exact (hrest.mem_live y hy).1,
            nxt_free_ne hyx 0⟩
        obtain ⟨ihlen, ihfree, ihget⟩ := ih (hset h x none) nx hseg'
          (List.nodup_cons.mp hnd).2 f (by simp at hfuel; omega)
        refine ⟨?_, ?_, ?_⟩
        · rw [hstep, ihlen, length_hset]
        · intro j hj
          rw [hstep]
          rcases List.mem_cons.mp hj with rfl | hjr
          · rw [liveD_congr_hget (ihget j hxnot)]
            simp [liveD, hget_hset_self (lt_length_of_liveD hl) none]
          · exact ihfree j hjr
        · intro j hj
          rw [hstep, ihget j (fun hm => hj (List.mem_cons_of_mem _ hm)),
            hget_free_ne (fun hb => hj (by rw [hb]; exact List.mem_cons_self _ _))]

/-- Folding head-pointer resets over a list of levels: every listed level
of `i` points at `t` afterwards, and nothing else changes. -/
theorem foldl_resetNext (t : Option Nat) (i : Nat) :
    ∀ (ls : List Nat) (h : Heap), (∀ L ∈ ls, L < nextLen h i) →
      ((ls.foldl (fun h L => hsetNext h i L t) h).length = h.length) ∧
      (∀ j, liveD (ls.foldl (fun h L => hsetNext h i L t) h) j = liveD h j) ∧
      (∀ j M, j ≠ i ∨ M ∉ ls →
        nxt (ls.foldl (fun h L => hsetNext h i L t) h) j M = nxt h j M) ∧
      (∀ M ∈ ls, nxt (ls.foldl (fun h L => hsetNext h i L t) h) i M = t) ∧
      (∀ j, prevOf (ls.foldl (fun h L => hsetNext h i L t) h) j = prevOf h j) := by
  intro ls
  induction ls with
  | nil =>
    intro h _
    exact ⟨rfl, fun j => rfl, fun j M _ => rfl,
      fun M hM => absurd hM (List.not_mem_nil _), fun j => rfl⟩
  | cons L0 rest ih =>
    intro h hlt
    simp only [List.foldl_cons]
    obtain ⟨xlen, xlive, xnxt, xset, xprev⟩ := ih (hsetNext h i L0 t)
      (fun L hL => by rw [nextLen_hsetNext]; exact hlt L (List.mem_cons_of_mem _ hL))
    refine ⟨?_, ?_, ?_, ?_, ?_⟩
    · rw [xlen, length_hsetNext]
    · intro j
      rw [xlive j, liveD_hsetNext]
    · intro j M hjM
      have hjM' : j ≠ i ∨ M ∉ rest := by
        rcases hjM with h' | h'
        · exact Or.inl h'
        · exact Or.inr fun hm => h' (List.mem_cons_of_mem _ hm)
      rw [xnxt j M hjM']
      rcases hjM with hji | hM0
      · exact nxt_hsetNext_ne hji _ _ _
      · exact nxt_hsetNext_neL
          (fun hML => hM0 (by rw [hML]; exact List.mem_cons_self _ _)) _ _
    · intro M hM
      rcases List.mem_cons.mp hM with rfl | hMrest
      · by_cases hMre : M ∈ rest
        · exact xset M hMre
        · rw [xnxt i M (Or.inr hMre)]
          exact nxt_hsetNext_self (hlt M (List.mem_cons_self _ _)) t
      · exact xset M hMrest
    · intro j
      rw [xprev j, prevOf_hsetNext]

/-- C7: `remove_all` frees every stored node, resets every level's head
forward pointer to the tail, the tail's backward reference to the head
(so `front` is the tail and `back` is the head), and the size to zero. -/
theorem C7_remove_all_empties (s : SL) (hs : Inv s) : removeAllOK s := by
  obtain ⟨hseg0, hlen0⟩ := chainAt_sound hs.chain0_eq
  cases hseg0 with
  | @cons _ st _ _ hneh hliveh hnh hsegst =>
    have hstart : (nxt s.heap headId 0).getD tailId = st := by
      rw [hnh]
      rfl
    obtain ⟨flen, ffree, fget⟩ := removeAllFree_spec (chain0 s.heap) s.heap st hsegst
      hs.nodup s.heap.length (by have := hs.len_bound; omega)
    set h1 := removeAllFree s.heap s.heap.length st with hh1
    have hget_head : hget h1 headId = hget s.heap headId := fget headId hs.head_not_mem
    have hget_tail : hget h1 tailId = hget s.heap tailId := fget tailId hs.tail_not_mem
    have hltfold : ∀ L ∈ List.range (maxLevels + 1), L < nextLen h1 headId := by
      intro L hL
      rw [nextLen_congr_hget hget_head, hs.headLen]
      simpa using hL
    obtain ⟨glen, glive, gnxt, gset, gprev⟩ :=
      foldl_resetNext (some tailId) headId (List.range (maxLevels + 1)) h1 hltfold
    set h2 := (List.range (maxLevels + 1)).foldl
      (fun h L => hsetNext h headId L (some tailId)) h1 with hh2
    have hra : remove_all s = { heap := hsetPrev h2 tailId (some headId), size := 0 } := by
      unfold remove_all
      rw [hstart]
    have htail2 : liveD h2 tailId = true := by
      rw [glive, liveD_congr_hget hget_tail]
      exact hs.tailLive
    have hnext_final : ∀ L, L < maxLevels + 1 →
        nxt (hsetPrev h2 tailId (some headId)) headId L = some tailId := by
      intro L hL
      rw [nxt_hsetPrev]
      exact gset L (by simpa using hL)
    have hprev_final : prevOf (hsetPrev h2 tailId (some headId)) tailId = some headId :=
      prevOf_hsetPrev_self htail2 _
    unfold removeAllOK
    rw [hra]
    refine ⟨rfl, hnext_final, hprev_final, ?_, ?_, ?_⟩
    · show (nxt (hsetPrev h2 tailId (some headId)) headId 0).getD tailId = tailId
      rw [hnext_final 0 (by omega)]
      rfl
    · show (prevOf (hsetPrev h2 tailId (some headId)) tailId).getD headId = headId
      rw [hprev_final]
      rfl
    · intro i hilen hilive
      by_cases hic : i ∈ chain0 s.heap
      · rw [liveD_hsetPrev, glive, ffree i hic] at hilive
        cases hilive
      · rw [liveD_hsetPrev, glive, liveD_congr_hget (fget i hic)] at hilive
        have hilen' : i < s.heap.length := by
          rw [length_hsetPrev, glen, flen] at hilen
          exact hilen
        rcases hs.live_char i hilen' hilive with h' | h' | h'
        · exact Or.inl h'
        · exact Or.inr h'
        · exact absurd h' hic

set_option maxHeartbeats 4000000 in
/-- C7 witness: `remove_all` on a two-element state. -/
theorem C7_remove_all_empties_witness : Inv wstateA ∧ removeAllOK wstateA :=
  ⟨by decide, C7_remove_all_empties wstateA (by decide)⟩

/-! ## C10: hinted insertion splices nothing above the hint's level. -/

/-- Level chains shrink as the level grows. -/
theorem chainL_mono {s : SL} (hs : Inv s) {L M : Nat} (hL : L < maxLevels + 1)
    (hM : M < maxLevels + 1) (hML : M ≤ L) :
    ∀ x ∈ (chainAt s.heap L).getD [], x ∈ (chainAt s.heap M).getD [] := by
  intro x hx
  rw [hs.mem_chainAt hM]
  obtain ⟨h1, h2⟩ := hs.chainL_sub hL hx
  exact ⟨h1, by omega⟩

/-- A value scan at level `L` started anywhere on the level-`L` chain lands
on the level-`L` chain (head included), whatever the start's value. -/
theorem scan_stays {s : SL} (hs : Inv s) {v : EV} {L : Nat} {t : Heap} {curr : Nat}
    (hL : L < maxLevels + 1) (hlen : s.heap.length ≤ t.length)
    (hsame : ∀ x, x < s.heap.length →
      liveD t x = liveD s.heap x ∧ nxt t x L = nxt s.heap x L)
    (hcurr : curr ∈ headId :: (chainAt s.heap L).getD []) :
    scanLess t v L t.length curr ∈ headId :: (chainAt s.heap L).getD [] := by
  have hchain : chainAt t L = some ((chainAt s.heap L).getD []) :=
    chainAt_agree hs hL (by have := hs.len_bound; omega) hsame
  obtain ⟨hseg, _⟩ := chainAt_sound hchain
  obtain ⟨pre, rest, hfull, hsegcurr⟩ := seg_from_mem hseg hcurr
  have hrestlen : rest.length ≤ t.length := by
    have h1 := congrArg List.length hfull
    have h2 := hs.chainL_len hL
    have h3 := hs.len_bound
    simp at h1
    omega
  rw [scanLess_eq_dest hsegcurr hrestlen]
  have hmem := @scanLessDest_mem t v rest curr
  rw [hfull]
  rcases List.mem_cons.mp hmem with h | h
  · rw [h]
    exact List.mem_append_right _ (List.mem_cons_self _ _)
  · exact List.mem_append_right _ (List.mem_cons_of_mem _ h)

/-- Effect of one splice of the hinted descent at level `L ≤ hl`. -/
theorem hint_splice {s : SL} (hs : Inv s) {hl L : Nat} {t : Heap} {p : Nat}
    (hL : L ≤ hl) (hhl : hl < maxLevels + 1)
    (hinv : HintInv s hl L t)
    (hp : p ∈ headId :: (chainAt s.heap L).getD []) :
    (spliceAt t s.heap.length L p).length = s.heap.length + 1 ∧
    (∀ j, j < s.heap.length →
      liveD (spliceAt t s.heap.length L p) j = liveD s.heap j ∧
      valD (spliceAt t s.heap.length L p) j = valD s.heap j ∧
      levelOf (spliceAt t s.heap.length L p) j = levelOf s.heap j ∧
      nextLen (spliceAt t s.heap.length L p) j = nextLen s.heap j) ∧
    (∀ j M, j < s.heap.length → M < L →
      nxt (spliceAt t s.heap.length L p) j M = nxt s.heap j M) ∧
    (∀ j M, j < s.heap.length → hl < M →
      nxt (spliceAt t s.heap.length L p) j M = nxt s.heap j M) ∧
    (∀ M, hl < M → nxt (spliceAt t s.heap.length L p) s.heap.length M = none) ∧
    (∀ M, L ≤ M → M ≤ hl → ∃ q, q < s.heap.length ∧
      nxt (spliceAt t s.heap.length L p) q M = some s.heap.length) := by
  obtain ⟨hlen, hattr, hlow, hhigh, hnid, hspl⟩ := hinv
  have hL6 : L < maxLevels + 1 := by omega
  have hplt : p < s.heap.length := by
    rcases List.mem_cons.mp hp with rfl | hpc
    · exact lt_length_of_liveD hs.headLive
    · exact hs.chain_lt_length (hs.chainL_sub hL6 hpc).1
  have hpne : p ≠ s.heap.length := by omega
  have hpnl : L < nextLen t p := by
    rcases List.mem_cons.mp hp with rfl | hpc
    · rw [(hattr headId (lt_length_of_liveD hs.headLive)).2.2.2, hs.headLen]
      omega
    · obtain ⟨hc0, hlev⟩ := hs.chainL_sub hL6 hpc
      obtain ⟨_, _, _, _, hnl⟩ := hs.mem_ok p hc0
      rw [(hattr p (hs.chain_lt_length hc0)).2.2.2, hnl]
      omega
  simp only [spliceAt]
  refine ⟨?_, ?_, ?_, ?_, ?_, ?_⟩
  · rw [length_hsetNext, length_hsetNext, hlen]
  · intro j hj
    rw [liveD_hsetNext, liveD_hsetNext, valD_hsetNext, valD_hsetNext,
      levelOf_hsetNext, levelOf_hsetNext, nextLen_hsetNext, nextLen_hsetNext]
    exact hattr j hj
  · intro j M hj hM
    have hML : M ≠ L := by omega
    by_cases hjp : j = p
    · subst hjp
      rw [nxt_hsetNext_neL hML, nxt_hsetNext_ne (by omega) _ _ _]
      exact hlow j M hj (by omega)
    · rw [nxt_hsetNext_ne hjp _ _ _, nxt_hsetNext_ne (by omega) _ _ _]
      exact hlow j M hj (by omega)
  · intro j M hj hM
    have hML : M ≠ L := by omega
    by_cases hjp : j = p
    · subst hjp
      rw [nxt_hsetNext_neL hML, nxt_hsetNext_ne (by omega) _ _ _]
      exact hhigh j M hj hM
    · rw [nxt_hsetNext_ne hjp _ _ _, nxt_hsetNext_ne (by omega) _ _ _]
      exact hhigh j M hj hM
  · intro M hM
    have hML : M ≠ L := by omega
    rw [nxt_hsetNext_ne (Ne.symm hpne) _ _ _, nxt_hsetNext_neL hML]
    exact hnid M hM
  · intro M hML hMhl
    rcases Nat.eq_or_lt_of_le hML with rfl | hMgt
    · refine ⟨p, hplt, ?_⟩
      rw [nxt_hsetNext_self (by rw [nextLen_hsetNext]; exact hpnl) _]
    · obtain ⟨q, hqlt, hq⟩ := hspl M hMgt hMhl
      have hML2 : M ≠ L := by omega
      refine ⟨q, hqlt, ?_⟩
      by_cases hqp : q = p
      · subst hqp
        rw [nxt_hsetNext_neL hML2, nxt_hsetNext_ne (by omega) _ _ _]
        exact hq
      · rw [nxt_hsetNext_ne hqp _ _ _, nxt_hsetNext_ne (by omega) _ _ _]
        exact hq

/-- The hinted descent from level `hl` establishes `HintOut`. -/
theorem hintLoop_go {s : SL} (hs : Inv s) {v : Int} {k hl : Nat}
    (hhl : hl < maxLevels + 1) (hlk : hl < k) :
    ∀ L, L ≤ hl → ∀ t curr, HintInv s hl L t →
      curr ∈ headId :: (chainAt s.heap L).getD [] →
      HintOut s hl (insertLoop (EV.fin v) s.heap.length k L t curr).1 := by
  intro L
  induction L with
  | zero =>
    intro hL t curr hinv hcurr
    have hpmem : scanLess t (EV.fin v) 0 t.length curr
        ∈ headId :: (chainAt s.heap 0).getD [] := by
      refine scan_stays hs (by omega) (by rw [hinv.1]; omega) ?_ hcurr
      intro x hx
      exact ⟨(hinv.2.1 x hx).1, hinv.2.2.1 x 0 hx le_rfl⟩
    obtain ⟨plen, pattr, plow, phigh, pnid, pspl⟩ := hint_splice hs hL hhl hinv hpmem
    have hloop : insertLoop (EV.fin v) s.heap.length k 0 t curr
        = (if 0 ≤ k then spliceAt t s.heap.length 0
            (scanLess t (EV.fin v) 0 t.length curr) else t,
           scanLess t (EV.fin v) 0 t.length curr) := by
      simp only [insertLoop]
    rw [hloop, if_pos (Nat.zero_le k)]
    exact ⟨plen, pattr, phigh, pnid, fun M hM => pspl M (Nat.zero_le M) hM⟩
  | succ M ih =>
    intro hL t curr hinv hcurr
    have hM6 : M + 1 < maxLevels + 1 := by omega
    have hpmem : scanLess t (EV.fin v) (M + 1) t.length curr
        ∈ headId :: (chainAt s.heap (M + 1)).getD [] := by
      refine scan_stays hs hM6 (by rw [hinv.1]; omega) ?_ hcurr
      intro x hx
      exact ⟨(hinv.2.1 x hx).1, hinv.2.2.1 x (M + 1) hx le_rfl⟩
    obtain ⟨plen, pattr, plow, phigh, pnid, pspl⟩ := hint_splice hs hL hhl hinv hpmem
    have hloop : insertLoop (EV.fin v) s.heap.length k (M + 1) t curr
        = insertLoop (EV.fin v) s.heap.length k M
            (if M + 1 ≤ k then spliceAt t s.heap.length (M + 1)
              (scanLess t (EV.fin v) (M + 1) t.length curr) else t)
            (scanLess t (EV.fin v) (M + 1) t.length curr) := by
      conv_lhs => rw [insertLoop]
    rw [hloop, if_pos (by omega)]
    refine ih (by omega) _ _
      ⟨plen, pattr, fun j M' hj hM' => plow j M' hj (by omega), phigh, pnid,
        fun M' hM' hM'2 => pspl M' (by omega) hM'2⟩ ?_
    rcases List.mem_cons.mp hpmem with h | h
    · rw [h]
      exact List.mem_cons_self _ _
    · exact List.mem_cons_of_mem _ (chainL_mono hs hM6 (by omega) (by omega) _ h)

/-- C10: with a non-null hint the descent starts at the hint's level; when
the drawn node level exceeds it, the node is spliced only at levels up to
the hint's level, it stays off every higher chain, and its forward
pointers above the hint's level remain null. -/
theorem C10_hinted_insert (s : SL) (hs : Inv s) (v : Int) (k : Nat) (hintN : Nat)
    (hmem : hintN ∈ chain0 s.heap) (hk : k ≤ maxLevels)
    (hgt : levelOf s.heap hintN < k) : hintInsertOK s v k hintN := by
  have hhlt : hintN < s.heap.length := hs.chain_lt_length hmem
  have hsl : levelOf (s.heap ++ [some (mkNode (EV.fin v) k)]) hintN
      = levelOf s.heap hintN := levelOf_alloc_old hhlt _
  have hhl6 : levelOf s.heap hintN < maxLevels + 1 := by
    have := (hs.mem_ok hintN hmem).2.2.2.1
    omega
  have hinv0 : HintInv s (levelOf s.heap hintN) (levelOf s.heap hintN)
      (s.heap ++ [some (mkNode (EV.fin v) k)]) := by
    refine ⟨by simp, ?_, ?_, ?_, ?_, ?_⟩
    · intro j hj
      exact ⟨liveD_alloc_old hj _, valD_alloc_old hj _, levelOf_alloc_old hj _,
        nextLen_alloc_old hj _⟩
    · intro j M hj _
      exact nxt_alloc_old hj _ _
    · intro j M hj _
      exact nxt_alloc_old hj _ _
    · intro M _
      exact nxt_alloc_new _ _ _ _
    · intro M h1 h2
      omega
  have hstartmem : hintN ∈ headId ::
      (chainAt s.heap (levelOf s.heap hintN)).getD [] := by
    refine List.mem_cons_of_mem _ ?_
    rw [hs.mem_chainAt hhl6]
    exact ⟨hmem, le_rfl⟩
  have hout := hintLoop_go hs (v := v) (k := k) hhl6 hgt (levelOf s.heap hintN)
    le_rfl _ hintN hinv0 hstartmem
  set tO := (insertLoop (EV.fin v) s.heap.length k (levelOf s.heap hintN)
    (s.heap ++ [some (mkNode (EV.fin v) k)]) hintN).1 with htO
  set cO := (insertLoop (EV.fin v) s.heap.length k (levelOf s.heap hintN)
    (s.heap ++ [some (mkNode (EV.fin v) k)]) hintN).2 with hcO
  obtain ⟨olen, oattr, ohigh, onid, ospl⟩ := hout
  have hins : insert s v k (some hintN) =
      ({ heap := (match nxt tO s.heap.length 0 with
          | some m => hsetPrev (hsetPrev tO s.heap.length (some cO)) m
              (some s.heap.length)
          | none => hsetPrev tO s.heap.length (some cO)),
         size := s.size + 1 }, s.heap.length) := by
    rw [htO, hcO, ← hsl]
    rfl
  have hragree : ∀ j M, nxt (insert s v k (some hintN)).1.heap j M = nxt tO j M := by
    intro j M
    rw [hins]
    show nxt (match nxt tO s.heap.length 0 with
      | some m => hsetPrev (hsetPrev tO s.heap.length (some cO)) m (some s.heap.length)
      | none => hsetPrev tO s.heap.length (some cO)) j M = nxt tO j M
    cases nxt tO s.heap.length 0 with
    | none => rw [nxt_hsetPrev]
    | some m => rw [nxt_hsetPrev, nxt_hsetPrev]
  have hrlive : ∀ j, liveD (insert s v k (some hintN)).1.heap j = liveD tO j := by
    intro j
    rw [hins]
    show liveD (match nxt tO s.heap.length 0 with
      | some m => hsetPrev (hsetPrev tO s.heap.length (some cO)) m (some s.heap.length)
      | none => hsetPrev tO s.heap.length (some cO)) j = liveD tO j
    cases nxt tO s.heap.length 0 with
    | none => rw [liveD_hsetPrev]
    | some m => rw [liveD_hsetPrev, liveD_hsetPrev]
  refine ⟨by rw [hins], by rw [hins], ?_, ?_, ?_⟩
  · intro M hM
    rw [hragree]
    exact onid M hM
  · intro L hL hgtL
    constructor
    · have hagree : chainAt (insert s v k (some hintN)).1.heap L
          = some ((chainAt s.heap L).getD []) := by
        refine chainAt_agree hs hL ?_ ?_
        · rw [hins]
          show (chain0 s.heap).length <
            (match nxt tO s.heap.length 0 with
              | some m => hsetPrev (hsetPrev tO s.heap.length (some cO)) m
                  (some s.heap.length)
              | none => hsetPrev tO s.heap.length (some cO)).length + 1
          have hb := hs.len_bound
          cases nxt tO s.heap.length 0 with
          | none =>
            rw [length_hsetPrev, olen]
            omega
          | some m =>
            rw [length_hsetPrev, length_hsetPrev, olen]
            omega
        · intro x hx
          rw [hrlive, hragree]
          exact ⟨(oattr x hx).1, ohigh x L hx hgtL⟩
      rw [hagree, hs.chainAt_eq hL]
      rfl
    · intro hbad
      have := hs.chain_lt_length (hs.chainL_sub hL hbad).1
      omega
  · intro M hM
    obtain ⟨p, hplt, hp⟩ := ospl M hM
    refine ⟨p, hplt, ?_⟩
    rw [hragree]
    exact hp

set_option maxHeartbeats 4000000 in
/-- C10 witness: a level-2 node inserted with a level-1 hint. -/
theorem C10_hinted_insert_witness :
    Inv dupPre ∧ 2 ∈ chain0 dupPre.heap ∧ 2 ≤ maxLevels ∧
      levelOf dupPre.heap 2 < 2 ∧ hintInsertOK dupPre 7 2 2 :=
  ⟨by decide, by decide, by decide, by decide,
    C10_hinted_insert dupPre (by decide) 7 2 2 (by decide) (by decide) (by decide)⟩

end SkipListModel

